import Mathlib

/-!
# Halley editor tasks: `EditorTask` and `EditorTaskAnchor`

A shallow embedding of `halley/tools/src/tasks/editor_task.cpp`.

* A C++ `float` is a value of `Flt`: NaN, one of the two infinities, or a finite
  value, written as the rational number it denotes.  Comparisons follow IEEE-754
  (every comparison with NaN is false).  The subtraction `Flt.sub` is exact, for
  the statements that take time as exact arithmetic; `Flt.sub32` is the
  subtraction of the machine, rounded to binary32.  The two signed zeroes are one
  value.
* A `std::unique_ptr<EditorTask>` and an `EditorTask*` are values of
  `Option TaskPtr`: `none` is the null pointer, `some p` the address of a task.
  The tasks live in a `Heap`, a map from addresses to tasks.
* `Concurrent::execute` is modelled by the number of closures handed to it; the
  future it returns is the index of the closure.  The outcome of the
  non-blocking poll `taskFuture.hasValue()` is an input of `update`.
* A method that dereferences a null or dangling task pointer returns `none`.
-/

namespace Halley

/-! ## Floats -/

/-- Value of a C++ `float`. -/
inductive Flt where
  | nan
  | negInf
  | fin (q : ℚ)
  | posInf
deriving DecidableEq

namespace Flt

/-- IEEE `a < b`. -/
def lt : Flt → Flt → Bool
  | fin a, fin b => decide (a < b)
  | negInf, fin _ => true
  | negInf, posInf => true
  | fin _, posInf => true
  | _, _ => false

/-- IEEE `a <= b`. -/
def le : Flt → Flt → Bool
  | fin a, fin b => decide (a ≤ b)
  | negInf, negInf => true
  | negInf, fin _ => true
  | negInf, posInf => true
  | fin _, posInf => true
  | posInf, posInf => true
  | _, _ => false

/-- IEEE `a - b`, with the finite case exact: the difference is not rounded.
`Flt.sub32` is the subtraction with the rounding of binary32. -/
def sub : Flt → Flt → Flt
  | nan, _ => nan
  | _, nan => nan
  | fin a, fin b => fin (a - b)
  | fin _, posInf => negInf
  | fin _, negInf => posInf
  | posInf, posInf => nan
  | posInf, _ => posInf
  | negInf, negInf => nan
  | negInf, _ => negInf

/-- `std::max(a, b)`, which is `(a < b) ? b : a`. -/
def max (a b : Flt) : Flt := if lt a b then b else a

/-- `std::min(a, b)`, which is `(b < a) ? b : a`. -/
def min (a b : Flt) : Flt := if lt b a then b else a

/-- The clamp of the specification: `lo` when `p < lo`, `hi` when `p > hi`,
and `p` otherwise. -/
def clamp (p lo hi : Flt) : Flt := if lt p lo then lo else if lt hi p then hi else p

end Flt

/-! ## Data model -/

/-- Address of a heap-allocated `EditorTask`. -/
abbrev TaskPtr := Nat

/-- `enum class EditorTaskStatus`. -/
inductive EditorTaskStatus where
  | WaitingToStart
  | Started
  | Done
deriving DecidableEq

/-- Position of a status in the order `WaitingToStart < Started < Done`. -/
def EditorTaskStatus.rank : EditorTaskStatus → Nat
  | .WaitingToStart => 0
  | .Started => 1
  | .Done => 2

/-- Fields of `class EditorTaskAnchor`.  `taskFuture` is `none` for a
default-constructed future and `some k` for the future of closure number `k`. -/
structure EditorTaskAnchor where
  task : Option TaskPtr
  status : EditorTaskStatus
  timeToStart : Flt
  taskFuture : Option Nat
  progress : Flt
  progressLabel : String
  parent : Option TaskPtr
deriving DecidableEq

/-- Fields of `class EditorTask`.  The class is declared in a header that is not
among the sources, so the type of `pendingTaskCount` is not visible; the code
applies `++`, `--`, `!= 0` and `> 0` to it and it is taken as an integer. -/
structure EditorTask where
  continuations : List EditorTaskAnchor
  pendingTasks : List EditorTaskAnchor
  progress : Flt
  name : String
  progressLabel : String
  cancelled : Bool
  pendingTaskCount : Int
  isCancellable : Bool
  isVisible : Bool
deriving DecidableEq

/-- The tasks in memory, by address. -/
abbrev Heap := TaskPtr → Option EditorTask

/-- Store `t` at address `p`. -/
def Heap.set (h : Heap) (p : TaskPtr) (t : EditorTask) : Heap :=
  fun q => if q = p then some t else h q

/-- The executor: the number of closures submitted through `Concurrent::execute`. -/
abbrev Concurrent := Nat

/-- `Concurrent::execute(closure)`: one more closure is submitted, and the future
of that closure is returned. -/
def Concurrent.execute (c : Concurrent) : Concurrent × Nat := (c + 1, c)

/-! ## `EditorTask` -/

namespace EditorTask

/-- `EditorTask::EditorTask(name, isCancellable, isVisible)`. -/
def ctor (name : String) (isCancellable isVisible : Bool) : EditorTask :=
  { continuations := []
    pendingTasks := []
    progress := Flt.fin 0
    name := name
    progressLabel := ""
    cancelled := false
    pendingTaskCount := 0
    isCancellable := isCancellable
    isVisible := isVisible }

/-- `EditorTask::addContinuation(task)`. -/
def addContinuation (t : EditorTask) (task : EditorTaskAnchor) : EditorTask :=
  { t with continuations := t.continuations ++ [task] }

/-- `EditorTask::setContinuations(tasks)`. -/
def setContinuations (t : EditorTask) (tasks : List EditorTaskAnchor) : EditorTask :=
  { t with continuations := tasks }

/-- `EditorTask::setProgress(p, label)`. -/
def setProgress (t : EditorTask) (p : Flt) (label : String) : EditorTask :=
  { t with
    progress := Flt.max (Flt.fin 0) (Flt.min p (Flt.fin 1))
    progressLabel := label }

/-- `EditorTask::isCancelled()`. -/
def isCancelled (t : EditorTask) : Bool := t.cancelled

/-- `EditorTask::hasPendingTasks()`. -/
def hasPendingTasks (t : EditorTask) : Bool := decide (t.pendingTaskCount ≠ 0)

end EditorTask

/-- `EditorTaskAnchor::setParent(editorTask)`, with the address of `editorTask`. -/
def EditorTaskAnchor.setParent (a : EditorTaskAnchor) (editorTask : TaskPtr) :
    EditorTaskAnchor :=
  { a with parent := some editorTask }

namespace EditorTask

/-- `EditorTask::addPendingTask(task)`; `self` is the address of this task. -/
def addPendingTask (self : TaskPtr) (t : EditorTask) (task : EditorTaskAnchor) :
    EditorTask :=
  { t with
    pendingTaskCount := t.pendingTaskCount + 1
    pendingTasks := t.pendingTasks ++ [task.setParent self] }

/-- `EditorTask::onPendingTaskDone(editorTaskAnchor)`. -/
def onPendingTaskDone (t : EditorTask) (_editorTaskAnchor : EditorTaskAnchor) :
    EditorTask :=
  { t with pendingTaskCount := t.pendingTaskCount - 1 }

end EditorTask

/-! ## `EditorTaskAnchor` -/

namespace EditorTaskAnchor

/-- `EditorTaskAnchor::EditorTaskAnchor(t, delay)`.  `Expects(!!task)` rejects a
null task.  The cached `progress` and `progressLabel` are not set by the
constructor; they start as `0` and the empty string. -/
def ctor (t : Option TaskPtr) (delay : Flt) : Option EditorTaskAnchor :=
  match t with
  | none => none
  | some p =>
    some
      { task := some p
        status := .WaitingToStart
        timeToStart := delay
        taskFuture := none
        progress := Flt.fin 0
        progressLabel := ""
        parent := none }

/-- `EditorTaskAnchor::update(time)`.  `hasValue` is what `taskFuture.hasValue()`
returns when it is polled.  The subtraction is the exact `Flt.sub`; `update32` is
the method with the subtraction of the machine. -/
def update (h : Heap) (c : Concurrent) (a : EditorTaskAnchor) (time : Flt)
    (hasValue : Bool) : Option (Concurrent × EditorTaskAnchor) :=
  match a.status with
  | .WaitingToStart =>
    let a1 := { a with timeToStart := Flt.sub a.timeToStart time }
    if Flt.le a1.timeToStart (Flt.fin 0) then
      let r := Concurrent.execute c
      some (r.1, { a1 with taskFuture := some r.2, status := .Started })
    else
      some (c, a1)
  | .Started =>
    let done := hasValue
    if done then
      some (c, { a with status := .Done, progress := Flt.fin 1, progressLabel := "" })
    else
      match a.task.bind h with
      | none => none
      | some t =>
        some (c, { a with progress := t.progress, progressLabel := t.progressLabel })
  | .Done => some (c, a)

/-- `EditorTaskAnchor::getProgressLabel()`. -/
def getProgressLabel (a : EditorTaskAnchor) : String := a.progressLabel

/-- `EditorTaskAnchor::cancel()`. -/
def cancel (h : Heap) (a : EditorTaskAnchor) : Option (Heap × EditorTaskAnchor) :=
  let a1 := if a.status = .WaitingToStart then { a with status := .Done } else a
  match a1.task with
  | none => none
  | some p =>
    match h p with
    | none => none
    | some t =>
      if t.isCancellable then
        some (h.set p { t with cancelled := true }, a1)
      else
        some (h, a1)

/-- `EditorTaskAnchor::getContinuations()`: the list is moved out of the task. -/
def getContinuations (h : Heap) (a : EditorTaskAnchor) :
    Option (Heap × List EditorTaskAnchor) :=
  match a.task with
  | none => none
  | some p =>
    match h p with
    | none => none
    | some t => some (h.set p { t with continuations := [] }, t.continuations)

/-- `EditorTaskAnchor::getPendingTasks()`: the list is moved out of the task when
the pending count is positive. -/
def getPendingTasks (h : Heap) (a : EditorTaskAnchor) :
    Option (Heap × List EditorTaskAnchor) :=
  match a.task with
  | none => none
  | some p =>
    match h p with
    | none => none
    | some t =>
      if t.pendingTaskCount > 0 then
        some (h.set p { t with pendingTasks := [] }, t.pendingTasks)
      else
        some (h, [])

end EditorTaskAnchor

/-! ## Sequences of calls -/

/-- A call of one of the methods of `EditorTask` that change the task. -/
inductive TaskCall where
  | setProgress (p : Flt) (label : String)
  | addContinuation (task : EditorTaskAnchor)
  | setContinuations (tasks : List EditorTaskAnchor)
  | addPendingTask (task : EditorTaskAnchor)
  | onPendingTaskDone (editorTaskAnchor : EditorTaskAnchor)

/-- The task after the call; `self` is the address of the task. -/
def EditorTask.call (self : TaskPtr) (t : EditorTask) : TaskCall → EditorTask
  | .setProgress p label => t.setProgress p label
  | .addContinuation task => t.addContinuation task
  | .setContinuations tasks => t.setContinuations tasks
  | .addPendingTask task => EditorTask.addPendingTask self t task
  | .onPendingTaskDone a => t.onPendingTaskDone a

/-- The call is `addPendingTask`. -/
def TaskCall.isAdd : TaskCall → Bool
  | .addPendingTask _ => true
  | _ => false

/-- The call is `onPendingTaskDone`. -/
def TaskCall.isDone : TaskCall → Bool
  | .onPendingTaskDone _ => true
  | _ => false

/-- One anchor with its surroundings: the tasks in memory, the executor, and the
anchors its caller has received from `getContinuations` and `getPendingTasks`. -/
structure World where
  heap : Heap
  concurrent : Concurrent
  anchor : EditorTaskAnchor
  gotContinuations : List EditorTaskAnchor
  gotPendingTasks : List EditorTaskAnchor

/-- An operation on the anchor of a `World`, or a call on the task it owns. -/
inductive Op where
  | update (time : Flt) (hasValue : Bool)
  | cancel
  | getContinuations
  | getPendingTasks
  | task (call : TaskCall)

/-- The operation is one of `addPendingTask`, `onPendingTaskDone` and
`getPendingTasks`. -/
def Op.isPending : Op → Bool
  | .getPendingTasks => true
  | .task c => c.isAdd || c.isDone
  | _ => false

/-- The operation is `addPendingTask`. -/
def Op.isAdd : Op → Bool
  | .task c => c.isAdd
  | _ => false

/-- The operation is `onPendingTaskDone`. -/
def Op.isDone : Op → Bool
  | .task c => c.isDone
  | _ => false

namespace World

/-- One operation. -/
def step (w : World) : Op → Option World
  | .update time hasValue =>
    (w.anchor.update w.heap w.concurrent time hasValue).map fun r =>
      { w with concurrent := r.1, anchor := r.2 }
  | .cancel =>
    (w.anchor.cancel w.heap).map fun r => { w with heap := r.1, anchor := r.2 }
  | .getContinuations =>
    (w.anchor.getContinuations w.heap).map fun r =>
      { w with heap := r.1, gotContinuations := w.gotContinuations ++ r.2 }
  | .getPendingTasks =>
    (w.anchor.getPendingTasks w.heap).map fun r =>
      { w with heap := r.1, gotPendingTasks := w.gotPendingTasks ++ r.2 }
  | .task c =>
    match w.anchor.task with
    | none => none
    | some p => (w.heap p).map fun t => { w with heap := w.heap.set p (t.call p c) }

/-- A sequence of operations, from left to right. -/
def run (w : World) : List Op → Option World
  | [] => some w
  | op :: ops => (w.step op).bind fun w1 => run w1 ops

/-- The task owned by the anchor, if the pointer is valid. -/
def task (w : World) : Option EditorTask := w.anchor.task.bind w.heap

end World

/-- The `update` calls with the given times and poll outcomes. -/
def updates (calls : List (ℚ × Bool)) : List Op :=
  calls.map fun x => Op.update (Flt.fin x.1) x.2

/-! ## Destruction -/

namespace EditorTaskAnchor

/-- The loop `while (status == Started && !taskFuture.hasValue()) {}` of the
destructor.  The list holds the outcomes of the successive polls of the future.
The result is the list of the outcomes not used when the loop is left; it is
`none` when the loop is still spinning after all the outcomes of the list. -/
def busyWait (status : EditorTaskStatus) : List Bool → Option (List Bool)
  | [] => if status = .Started then none else some []
  | hasValue :: rest =>
    if status = .Started then
      if hasValue then some rest else busyWait status rest
    else
      some (hasValue :: rest)

/-- The body of `EditorTaskAnchor::~EditorTaskAnchor()`, with the outcomes of the
polls of the future.  The destruction of the members that follows the body is
not part of it. -/
def dtor (h : Heap) (a : EditorTaskAnchor) (polls : List Bool) : Option Heap :=
  match a.task with
  | none => some h
  | some _ =>
    let joined : Option (Heap × EditorTaskAnchor) :=
      if a.status ≠ .Done then
        match a.cancel h with
        | none => none
        | some r => (busyWait r.2.status polls).map fun _ => r
      else
        some (h, a)
    match joined with
    | none => none
    | some r =>
      match r.2.parent with
      | none => some r.1
      | some q =>
        match r.1 q with
        | none => none
        | some pt => some (r.1.set q (pt.onPendingTaskDone r.2))

end EditorTaskAnchor

namespace World

/-- The operation polls the future of a started anchor and the future reports
completion. -/
def stepObserved (w : World) : Op → Bool
  | .update _ hasValue => decide (w.anchor.status = .Started) && hasValue
  | _ => false

/-- Some poll of the future made by the operations of the sequence reports
completion. -/
def observed (w : World) : List Op → Bool
  | [] => false
  | op :: ops =>
    w.stepObserved op ||
      match w.step op with
      | none => false
      | some w1 => observed w1 ops

end World

/-- What happens around an anchor whose task registers children: an operation on
the anchor or a call on its task, or the caller updating, cancelling or
destroying the child at position `i` of those it received from
`getPendingTasks`. -/
inductive Event where
  | op (o : Op)
  | childUpdate (i : Nat) (time : Flt) (hasValue : Bool)
  | childCancel (i : Nat)
  | childDestroy (i : Nat) (polls : List Bool)

/-- The event is a direct call of `onPendingTaskDone`, not one made by the
destructor of a child. -/
def Event.isDirectDone : Event → Bool
  | .op o => o.isDone
  | _ => false

namespace World

/-- One event. -/
def event (w : World) : Event → Option World
  | .op o => w.step o
  | .childUpdate i time hasValue =>
    match w.gotPendingTasks.get? i with
    | none => none
    | some c =>
      (c.update w.heap w.concurrent time hasValue).map fun r =>
        { w with concurrent := r.1, gotPendingTasks := w.gotPendingTasks.set i r.2 }
  | .childCancel i =>
    match w.gotPendingTasks.get? i with
    | none => none
    | some c =>
      (c.cancel w.heap).map fun r =>
        { w with heap := r.1, gotPendingTasks := w.gotPendingTasks.set i r.2 }
  | .childDestroy i polls =>
    match w.gotPendingTasks.get? i with
    | none => none
    | some c =>
      (c.dtor w.heap polls).map fun h1 =>
        { w with heap := h1, gotPendingTasks := w.gotPendingTasks.eraseIdx i }

/-- A sequence of events, from left to right. -/
def play (w : World) : List Event → Option World
  | [] => some w
  | e :: es => (w.event e).bind fun w1 => play w1 es

end World

/-- The continuation list as the specification describes it: `setContinuations`
replaces the list, `addContinuation` appends at the end, and no other call
changes it. -/
def specContinuations (l : List EditorTaskAnchor) : List TaskCall → List EditorTaskAnchor
  | [] => l
  | .setContinuations tasks :: calls => specContinuations tasks calls
  | .addContinuation task :: calls => specContinuations (l ++ [task]) calls
  | _ :: calls => specContinuations l calls

/-- The children registered by the `addPendingTask` calls of a sequence of calls,
in the order of registration, each with its parent set to the task at `self`. -/
def registeredChildren (self : TaskPtr) : List TaskCall → List EditorTaskAnchor
  | [] => []
  | .addPendingTask task :: calls => task.setParent self :: registeredChildren self calls
  | _ :: calls => registeredChildren self calls

/-- The float lies in the interval from `0` to `1`: `0 <= x` and `x <= 1`. -/
def Flt.inUnit (x : Flt) : Prop := Flt.le (Flt.fin 0) x = true ∧ Flt.le x (Flt.fin 1) = true

/-! ## The mutex -/

/-- The fields of a task that the specification places under the mutex of the
task. -/
inductive Field where
  | progress
  | progressLabel
  | pendingTasks
  | pendingTaskCount
deriving DecidableEq

/-- What a method does with the mutex of the task and with the fields under it:
`lock` is the construction of `std::lock_guard<std::mutex> lock(mutex)`, `unlock`
the end of the scope of the guard. -/
inductive Access where
  | lock
  | unlock
  | read (f : Field)
  | write (f : Field)
deriving DecidableEq

/-- The methods that touch the fields under the mutex after construction. -/
inductive Method where
  | setProgress
  | hasPendingTasks
  | addPendingTask
  | onPendingTaskDone
  | update
  | getPendingTasks
deriving DecidableEq

/-- The accesses of each method, in the order of the source, one list for each
path through the method.

* `setProgress`: the guard, then `progress = ...` and `progressLabel = label`.
* `hasPendingTasks`: `return pendingTaskCount != 0`, without a guard.
* `addPendingTask`: the guard, `++pendingTaskCount`, `pendingTasks.emplace_back`.
* `onPendingTaskDone`: the guard, `--pendingTaskCount`.
* `update`: only the branch for `Started` with the future not completed touches
  the task: the guard on `task->mutex`, then the two copies; the other branches
  (waiting, submitting, completed, `Done`) touch none of the fields.
* `getPendingTasks`: `task->pendingTaskCount > 0` is read first; when it holds,
  the guard on `task->mutex` and the move out of `task->pendingTasks`. -/
def Method.paths : Method → List (List Access)
  | .setProgress => [[.lock, .write .progress, .write .progressLabel, .unlock]]
  | .hasPendingTasks => [[.read .pendingTaskCount]]
  | .addPendingTask =>
    [[.lock, .read .pendingTaskCount, .write .pendingTaskCount, .write .pendingTasks,
      .unlock]]
  | .onPendingTaskDone =>
    [[.lock, .read .pendingTaskCount, .write .pendingTaskCount, .unlock]]
  | .update =>
    [[], [.lock, .read .progress, .read .progressLabel, .unlock]]
  | .getPendingTasks =>
    [[.read .pendingTaskCount, .lock, .read .pendingTasks, .write .pendingTasks, .unlock],
      [.read .pendingTaskCount]]

/-- Every access of the path that is not exempt is made while the mutex is held;
`held` tells whether the mutex is held at the start of the path. -/
def guarded (exempt : Access → Bool) : Bool → List Access → Bool
  | _, [] => true
  | _, .lock :: rest => guarded exempt true rest
  | _, .unlock :: rest => guarded exempt false rest
  | held, .read f :: rest => (held || exempt (.read f)) && guarded exempt held rest
  | held, .write f :: rest => (held || exempt (.write f)) && guarded exempt held rest

/-- No access is exempt. -/
def noAccess : Access → Bool := fun _ => false

/-- The reads of `pendingTaskCount`. -/
def countRead : Access → Bool
  | .read .pendingTaskCount => true
  | _ => false

/-! ## The subtraction of the machine -/

/-- The integer nearest to `q`, the even one of the two when `q` lies halfway
between them. -/
def Flt.roundEven (q : ℚ) : ℤ :=
  if q - ⌊q⌋ < 1 / 2 then ⌊q⌋
  else if 1 / 2 < q - ⌊q⌋ then ⌊q⌋ + 1
  else if ⌊q⌋ % 2 = 0 then ⌊q⌋
  else ⌊q⌋ + 1

/-- The exponent of the unit in the last place of binary32 at `q`, for `q` not
zero: the significand has 24 bits, and the exponent is not below `-149`. -/
def Flt.ulpExp (q : ℚ) : ℤ :=
  if Int.log 2 |q| - 23 < -149 then -149 else Int.log 2 |q| - 23

/-- The binary32 value nearest to the rational `q` (IEEE-754 round to nearest,
ties to even): a multiple of the unit in the last place, and an infinity when
the result reaches `2 ^ 128`. -/
def Flt.round32 (q : ℚ) : Flt :=
  if q = 0 then Flt.fin 0
  else if (2 : ℚ) ^ (128 : ℕ) ≤ |(Flt.roundEven (q / 2 ^ Flt.ulpExp q) : ℚ) * 2 ^ Flt.ulpExp q| then
    (if 0 < q then Flt.posInf else Flt.negInf)
  else Flt.fin ((Flt.roundEven (q / 2 ^ Flt.ulpExp q) : ℚ) * 2 ^ Flt.ulpExp q)

/-- IEEE `a - b` in binary32: the exact difference, rounded. -/
def Flt.sub32 (a b : Flt) : Flt :=
  match Flt.sub a b with
  | Flt.fin q => Flt.round32 q
  | x => x

namespace EditorTaskAnchor

/-- `EditorTaskAnchor::update(time)` with the float subtraction of
`timeToStart -= time` given as `sub`; `update` is the case of the exact
subtraction `Flt.sub`. -/
def updateWith (sub : Flt → Flt → Flt) (h : Heap) (c : Concurrent) (a : EditorTaskAnchor)
    (time : Flt) (hasValue : Bool) : Option (Concurrent × EditorTaskAnchor) :=
  match a.status with
  | .WaitingToStart =>
    let a1 := { a with timeToStart := sub a.timeToStart time }
    if Flt.le a1.timeToStart (Flt.fin 0) then
      let r := Concurrent.execute c
      some (r.1, { a1 with taskFuture := some r.2, status := .Started })
    else
      some (c, a1)
  | .Started =>
    let done := hasValue
    if done then
      some (c, { a with status := .Done, progress := Flt.fin 1, progressLabel := "" })
    else
      match a.task.bind h with
      | none => none
      | some t =>
        some (c, { a with progress := t.progress, progressLabel := t.progressLabel })
  | .Done => some (c, a)

/-- `EditorTaskAnchor::update(time)` as the machine runs it, with the subtraction
in binary32. -/
def update32 (h : Heap) (c : Concurrent) (a : EditorTaskAnchor) (time : Flt)
    (hasValue : Bool) : Option (Concurrent × EditorTaskAnchor) :=
  updateWith Flt.sub32 h c a time hasValue

/-- A sequence of `update` calls, each with its time and the outcome of its poll,
from the number of submitted closures and the anchor given. -/
def updatesWith (sub : Flt → Flt → Flt) (h : Heap) :
    Concurrent × EditorTaskAnchor → List (Flt × Bool) → Option (Concurrent × EditorTaskAnchor)
  | s, [] => some s
  | s, x :: xs => (updateWith sub h s.1 s.2 x.1 x.2).bind fun s1 => updatesWith sub h s1 xs

end EditorTaskAnchor

/-- Some call of a sequence of `update` calls leaves the remaining time at `0` or
less: `r` is the remaining time before the sequence, and each time of the list is
subtracted in turn by `sub`. -/
def reaches (sub : Flt → Flt → Flt) (r : Flt) : List Flt → Bool
  | [] => false
  | x :: xs => Flt.le (sub r x) (Flt.fin 0) || reaches sub (sub r x) xs

/-! ## Concrete objects -/

/-- A cancellable task, as constructed. -/
def task0 : EditorTask := EditorTask.ctor "import" true true

/-- A task that cannot be cancelled, as constructed. -/
def task1 : EditorTask := EditorTask.ctor "scan" false true

/-- A memory with `task0` at address `0` and `task1` at address `1`. -/
def heap0 : Heap := fun q => if q = 0 then some task0 else if q = 1 then some task1 else none

/-- The anchor constructed over the task at address `p` with a delay of half a
second. -/
def anchor0 (p : TaskPtr) : EditorTaskAnchor :=
  { task := some p
    status := .WaitingToStart
    timeToStart := Flt.fin (1 / 2)
    taskFuture := none
    progress := Flt.fin 0
    progressLabel := ""
    parent := none }

/-- The world of `anchor0 p` in `heap0`, nothing submitted yet. -/
def world0 (p : TaskPtr) : World :=
  { heap := heap0
    concurrent := 0
    anchor := anchor0 p
    gotContinuations := []
    gotPendingTasks := [] }

/-- The anchor `anchor0 p` after its closure has been submitted. -/
def anchorStarted (p : TaskPtr) : EditorTaskAnchor :=
  { anchor0 p with status := .Started, timeToStart := Flt.fin (-1 / 10), taskFuture := some 0 }

/-- The world of `anchorStarted p` in `heap0`, one closure submitted. -/
def worldStarted (p : TaskPtr) : World :=
  { heap := heap0
    concurrent := 1
    anchor := anchorStarted p
    gotContinuations := []
    gotPendingTasks := [] }

/-- A child of the task at address `0`: the anchor over the task at address `1`,
registered by `addPendingTask`, in the given status. -/
def child0 (status : EditorTaskStatus) : EditorTaskAnchor :=
  { anchor0 1 with status := status, parent := some 0 }

/-- The world `world0 0` after `update(1)`: the closure has been submitted. -/
def worldSubmitted : World :=
  { world0 0 with
    concurrent := 1
    anchor := { anchor0 0 with
      timeToStart := Flt.fin (1 / 2 - 1)
      taskFuture := some 0
      status := .Started } }

/-- Two children are registered and handed out, the second is cancelled, and
both are destroyed. -/
def events0 : List Event :=
  [.op (.task (.addPendingTask (anchor0 1))), .op (.task (.addPendingTask (anchor0 2))),
    .op .getPendingTasks, .childCancel 1, .childDestroy 0 [], .childDestroy 0 []]

/-- A child is registered and handed out, a second child is registered, and the
first is destroyed. -/
def events1 : List Event :=
  [.op (.task (.addPendingTask (anchor0 1))), .op .getPendingTasks,
    .op (.task (.addPendingTask (anchor0 1))), .childDestroy 0 []]

/-- A memory with `task0` at address `0`, `task1` at address `1` and a
cancellable task at address `2`. -/
def heap1 : Heap := heap0.set 2 (EditorTask.ctor "sync" true false)

/-- The world `world0 0` with the memory `heap1`. -/
def world1 : World := { world0 0 with heap := heap1 }

/-- The world `world1` after the events `events0`. -/
def world1After0 : World := (world1.play events0).getD world1

/-- The world `world1` after the events `events1`. -/
def world1After1 : World := (world1.play events1).getD world1

/-- The world `world0 0` with the anchor constructed with an infinite delay. -/
def worldInf : World :=
  { world0 0 with anchor := { anchor0 0 with timeToStart := Flt.posInf } }

/-- The anchor constructed over the task at address `0` with a delay of one
second. -/
def anchorOne : EditorTaskAnchor :=
  { anchor0 0 with timeToStart := Flt.fin 1 }

/-! ## `setProgress` -/

/-- C1 as stated fails at NaN: `std::min(NaN, 1)` is NaN and `std::max(0, NaN)` is
`0`, so the stored progress is `0`, while the clamp of NaN is NaN. -/
theorem setProgress_nan_not_clamp :
    ((EditorTask.ctor "t" true true).setProgress Flt.nan "x").progress
        = Flt.fin 0
      ∧ ((EditorTask.ctor "t" true true).setProgress Flt.nan "x").progress
        ≠ Flt.clamp Flt.nan (Flt.fin 0) (Flt.fin 1) := by
  simp [EditorTask.setProgress, Flt.max, Flt.min, Flt.lt, Flt.clamp]

/-- C1, amended: for every `p` that is not NaN (the infinities included) the
progress stored by `setProgress(p, label)` is `clamp(p, 0, 1)`, for NaN it is `0`,
and in both cases the stored label is `label`. -/
theorem setProgress_clamp (t : EditorTask) (p : Flt) (label : String)
    (hp : p ≠ Flt.nan) :
    (t.setProgress p label).progress = Flt.clamp p (Flt.fin 0) (Flt.fin 1)
      ∧ (t.setProgress p label).progressLabel = label
      ∧ (t.setProgress Flt.nan label).progress = Flt.fin 0
      ∧ (t.setProgress Flt.nan label).progressLabel = label := by
  refine ⟨?_, rfl, ?_, rfl⟩
  · cases p with
    | nan => exact absurd rfl hp
    | negInf => simp [EditorTask.setProgress, Flt.max, Flt.min, Flt.lt, Flt.clamp]
    | posInf => simp [EditorTask.setProgress, Flt.max, Flt.min, Flt.lt, Flt.clamp]
    | fin q =>
      by_cases h1 : (1 : ℚ) < q
      · have h0 : ¬ q < 0 := by linarith
        simp [EditorTask.setProgress, Flt.max, Flt.min, Flt.lt, Flt.clamp, h1, h0]
      · by_cases h0 : q < 0
        · have h2 : ¬ (0 : ℚ) < q := by linarith
          simp [EditorTask.setProgress, Flt.max, Flt.min, Flt.lt, Flt.clamp, h1, h0, h2]
        · by_cases h2 : (0 : ℚ) < q
          · simp [EditorTask.setProgress, Flt.max, Flt.min, Flt.lt, Flt.clamp, h1, h0, h2]
          · have hq : q = 0 := le_antisymm (not_lt.mp h2) (not_lt.mp h0)
            subst hq
            norm_num [EditorTask.setProgress, Flt.max, Flt.min, Flt.lt, Flt.clamp]
  · simp [EditorTask.setProgress, Flt.max, Flt.min, Flt.lt]

/-- Witness of `setProgress_clamp`, at `p = 3/2`. -/
theorem setProgress_clamp_witness :
    ((EditorTask.ctor "t" true true).setProgress (Flt.fin (3 / 2)) "x").progress
        = Flt.clamp (Flt.fin (3 / 2)) (Flt.fin 0) (Flt.fin 1)
      ∧ ((EditorTask.ctor "t" true true).setProgress (Flt.fin (3 / 2)) "x").progressLabel
        = "x"
      ∧ ((EditorTask.ctor "t" true true).setProgress Flt.nan "x").progress = Flt.fin 0
      ∧ ((EditorTask.ctor "t" true true).setProgress Flt.nan "x").progressLabel = "x" :=
  setProgress_clamp (EditorTask.ctor "t" true true) (Flt.fin (3 / 2)) "x" (by decide)

/-! ## Waiting for the delay -/

/-- An `update` of a waiting anchor whose remaining delay is the finite `r`:
the delay goes down by the time, and the closure is submitted when it reaches
`0` or less. -/
theorem World.step_update_waiting (w : World) (r x : ℚ) (b : Bool)
    (hs : w.anchor.status = .WaitingToStart) (hr : w.anchor.timeToStart = Flt.fin r) :
    w.step (.update (Flt.fin x) b) =
      some (if r - x ≤ 0 then
          { w with
            concurrent := w.concurrent + 1
            anchor := { w.anchor with
              timeToStart := Flt.fin (r - x)
              taskFuture := some w.concurrent
              status := .Started } }
        else { w with anchor := { w.anchor with timeToStart := Flt.fin (r - x) } }) := by
  simp only [World.step, EditorTaskAnchor.update, hs, hr, Flt.sub, Flt.le,
    Concurrent.execute]
  by_cases hx : r - x ≤ 0 <;> simp [hx]

/-- While the times of the `update` calls stay below the remaining delay, nothing
is submitted and the anchor keeps waiting. -/
theorem World.run_updates_waiting (calls : List (ℚ × Bool)) :
    ∀ (w : World) (r : ℚ), w.anchor.status = .WaitingToStart →
      w.anchor.timeToStart = Flt.fin r → (∀ x ∈ calls, 0 ≤ x.1) →
      (calls.map Prod.fst).sum < r →
      ∃ w1, w.run (updates calls) = some w1 ∧ w1.concurrent = w.concurrent
        ∧ w1.anchor.timeToStart = Flt.fin (r - (calls.map Prod.fst).sum)
        ∧ w1.anchor.status = .WaitingToStart := by
  induction calls with
  | nil =>
    intro w r hs hr _ _
    exact ⟨w, rfl, rfl, by simpa using hr, hs⟩
  | cons x rest ih =>
    intro w r hs hr hnn hsum
    have hx0 : 0 ≤ x.1 := hnn x (List.mem_cons_self _ _)
    have hrest : ∀ y ∈ rest, 0 ≤ y.1 := fun y hy => hnn y (List.mem_cons_of_mem _ hy)
    have hrest0 : 0 ≤ (rest.map Prod.fst).sum :=
      List.sum_nonneg (by
        intro q hq
        obtain ⟨y, hy, rfl⟩ := List.mem_map.mp hq
        exact hrest y hy)
    simp only [List.map_cons, List.sum_cons] at hsum
    have hpos : ¬ r - x.1 ≤ 0 := by linarith
    have hstep := World.step_update_waiting w r x.1 x.2 hs hr
    rw [if_neg hpos] at hstep
    obtain ⟨w1, hrun, hc, hh, hst⟩ :=
      ih { w with anchor := { w.anchor with timeToStart := Flt.fin (r - x.1) } }
        (r - x.1) hs rfl hrest (by linarith)
    refine ⟨w1, ?_, hc, ?_, hst⟩
    · simp only [updates, List.map_cons, World.run, hstep, Option.some_bind]
      exact hrun
    · rw [hh, List.map_cons, List.sum_cons, sub_sub]

/-- Reading the address that was just written. -/
theorem Heap.set_same (h : Heap) (p : TaskPtr) (t : EditorTask) : (h.set p t) p = some t := by
  simp [Heap.set]

/-- Writing an address twice keeps the second task. -/
theorem Heap.set_set (h : Heap) (p : TaskPtr) (t u : EditorTask) :
    (h.set p t).set p u = h.set p u := by
  funext q
  simp only [Heap.set]
  split <;> rfl

/-- Reading another address than the one just written. -/
theorem Heap.set_other (h : Heap) (p q : TaskPtr) (t : EditorTask) (hq : q ≠ p) :
    (h.set p t) q = h q := by
  simp [Heap.set, hq]

/-- With a valid task pointer every operation returns; the pointer stays valid,
the status does not move backwards, and a closure is submitted only by an anchor
that was waiting. -/
theorem World.step_valid (w : World) (op : Op) (p : TaskPtr) (t : EditorTask)
    (hp : w.anchor.task = some p) (ht : w.heap p = some t) :
    ∃ w1 t1, w.step op = some w1 ∧ w1.anchor.task = some p ∧ w1.heap p = some t1
      ∧ w.anchor.status.rank ≤ w1.anchor.status.rank
      ∧ w.concurrent ≤ w1.concurrent
      ∧ (w.anchor.status ≠ .WaitingToStart → w1.concurrent = w.concurrent) := by
  cases op with
  | update time hasValue =>
    cases hst : w.anchor.status with
    | WaitingToStart =>
      by_cases hle : Flt.le (Flt.sub w.anchor.timeToStart time) (Flt.fin 0) = true
      · simp only [World.step, EditorTaskAnchor.update, hst, hle, if_true,
          Option.map_some', Concurrent.execute]
        exact ⟨_, t, rfl, hp, ht, by simp [EditorTaskStatus.rank], by simp, by simp⟩
      · simp only [World.step, EditorTaskAnchor.update, hst, hle, if_false,
          Option.map_some']
        exact ⟨_, t, rfl, hp, ht, le_refl _, le_refl _, by simp⟩
    | Started =>
      cases hasValue with
      | true =>
        simp only [World.step, EditorTaskAnchor.update, hst, if_true, Option.map_some']
        exact ⟨_, t, rfl, hp, ht, by simp [EditorTaskStatus.rank], le_refl _, fun _ => rfl⟩
      | false =>
        simp only [World.step, EditorTaskAnchor.update, hst, hp, ht, Option.some_bind,
          Option.map_some', Bool.false_eq_true, if_false]
        exact ⟨_, t, rfl, rfl, ht, le_refl _, le_refl _, fun _ => rfl⟩
    | Done =>
      simp only [World.step, EditorTaskAnchor.update, hst, Option.map_some']
      exact ⟨_, t, rfl, hp, ht, by simp [hst], le_refl _, fun _ => rfl⟩
  | cancel =>
    have ha1 : (if w.anchor.status = .WaitingToStart then
        { w.anchor with status := EditorTaskStatus.Done } else w.anchor).task = some p := by
      split <;> exact hp
    have hrank : w.anchor.status.rank ≤ (if w.anchor.status = .WaitingToStart then
        { w.anchor with status := EditorTaskStatus.Done } else w.anchor).status.rank := by
      split
      · next h => simp [h, EditorTaskStatus.rank]
      · exact le_refl _
    by_cases hc : t.isCancellable = true
    · simp only [World.step, EditorTaskAnchor.cancel, ha1, ht, hc, if_true,
        Option.map_some']
      exact ⟨_, _, rfl, ha1, Heap.set_same _ _ _, hrank, le_refl _, fun _ => rfl⟩
    · simp only [World.step, EditorTaskAnchor.cancel, ha1, ht, hc, if_false,
        Option.map_some']
      exact ⟨_, t, rfl, ha1, ht, hrank, le_refl _, fun _ => rfl⟩
  | getContinuations =>
    simp only [World.step, EditorTaskAnchor.getContinuations, hp, ht, Option.map_some']
    exact ⟨_, _, rfl, hp, Heap.set_same _ _ _, le_refl _, le_refl _, fun _ => rfl⟩
  | getPendingTasks =>
    by_cases hc : t.pendingTaskCount > 0
    · simp only [World.step, EditorTaskAnchor.getPendingTasks, hp, ht, hc, if_true,
        Option.map_some']
      exact ⟨_, _, rfl, hp, Heap.set_same _ _ _, le_refl _, le_refl _, fun _ => rfl⟩
    · simp only [World.step, EditorTaskAnchor.getPendingTasks, hp, ht, hc, if_false,
        Option.map_some']
      exact ⟨_, t, rfl, hp, ht, le_refl _, le_refl _, fun _ => rfl⟩
  | task c =>
    simp only [World.step, hp, ht, Option.map_some']
    exact ⟨_, _, rfl, hp, Heap.set_same _ _ _, le_refl _, le_refl _, fun _ => rfl⟩

/-- With a valid task pointer every sequence of operations returns; the pointer
stays valid, the status does not move backwards, and once the anchor has left
`WaitingToStart` nothing more is submitted. -/
theorem World.run_valid (ops : List Op) :
    ∀ (w : World) (p : TaskPtr) (t : EditorTask),
      w.anchor.task = some p → w.heap p = some t →
      ∃ w1 t1, w.run ops = some w1 ∧ w1.anchor.task = some p ∧ w1.heap p = some t1
        ∧ w.anchor.status.rank ≤ w1.anchor.status.rank
        ∧ w.concurrent ≤ w1.concurrent
        ∧ (w.anchor.status ≠ .WaitingToStart → w1.concurrent = w.concurrent) := by
  induction ops with
  | nil =>
    intro w p t hp ht
    exact ⟨w, t, rfl, hp, ht, le_refl _, le_refl _, fun _ => rfl⟩
  | cons op rest ih =>
    intro w p t hp ht
    obtain ⟨w1, t1, hstep, hp1, ht1, hr1, hc1, hn1⟩ := World.step_valid w op p t hp ht
    obtain ⟨w2, t2, hrun, hp2, ht2, hr2, hc2, hn2⟩ := ih w1 p t1 hp1 ht1
    refine ⟨w2, t2, ?_, hp2, ht2, le_trans hr1 hr2, le_trans hc1 hc2, ?_⟩
    · simp only [World.run, hstep, Option.some_bind]
      exact hrun
    · intro hne
      have hne1 : w1.anchor.status ≠ .WaitingToStart := by
        intro h0
        rw [h0] at hr1
        cases hs : w.anchor.status with
        | WaitingToStart => exact hne hs
        | Started => rw [hs] at hr1; simp [EditorTaskStatus.rank] at hr1
        | Done => rw [hs] at hr1; simp [EditorTaskStatus.rank] at hr1
      rw [hn2 hne1, hn1 hne]

/-! ## Submission -/

/-- Running two sequences one after the other. -/
theorem World.run_append (l1 l2 : List Op) :
    ∀ w : World, w.run (l1 ++ l2) = (w.run l1).bind fun w1 => w1.run l2 := by
  induction l1 with
  | nil => intro w; rfl
  | cons op rest ih =>
    intro w
    simp only [List.cons_append, World.run]
    cases w.step op with
    | none => rfl
    | some w1 => exact ih w1

/-- A waiting anchor whose remaining delay `r` is reached by the times of the first
`k` calls of a sequence of `update` calls (`k >= 1`) has submitted exactly one
closure at the end of the sequence, and has left `WaitingToStart`. -/
theorem World.run_updates_reach (calls : List (ℚ × Bool)) :
    ∀ (w : World) (r : ℚ) (k : Nat) (p : TaskPtr) (t : EditorTask),
      w.anchor.status = .WaitingToStart → w.anchor.timeToStart = Flt.fin r →
      w.anchor.task = some p → w.heap p = some t →
      calls ≠ [] → 1 ≤ k → r ≤ ((calls.take k).map Prod.fst).sum →
      ∃ w1, w.run (updates calls) = some w1 ∧ w1.concurrent = w.concurrent + 1
        ∧ w1.anchor.status ≠ .WaitingToStart := by
  induction calls with
  | nil => intro w r k p t _ _ _ _ hne; exact absurd rfl hne
  | cons x rest ih =>
    intro w r k p t hs hr hp ht _ hk hreach
    obtain ⟨k1, rfl⟩ : ∃ k1, k = k1 + 1 := ⟨k - 1, by omega⟩
    simp only [List.take_succ_cons, List.map_cons, List.sum_cons] at hreach
    have hstep := World.step_update_waiting w r x.1 x.2 hs hr
    by_cases hle : r - x.1 ≤ 0
    · rw [if_pos hle] at hstep
      obtain ⟨w2, t2, hrun, _, _, hrank, _, hsame⟩ :=
        World.run_valid (updates rest) _ p t
          (show ({ w with
              concurrent := w.concurrent + 1
              anchor := { w.anchor with
                timeToStart := Flt.fin (r - x.1)
                taskFuture := some w.concurrent
                status := .Started } } : World).anchor.task = some p from hp) ht
      refine ⟨w2, ?_, hsame (by simp), ?_⟩
      · simp only [updates, List.map_cons, World.run, hstep, Option.some_bind]
        exact hrun
      · intro h0
        rw [h0] at hrank
        simp [EditorTaskStatus.rank] at hrank
    · rw [if_neg hle] at hstep
      have hpos : 0 < ((rest.take k1).map Prod.fst).sum := by linarith [not_le.mp hle]
      have hk1 : 1 ≤ k1 := by
        rcases Nat.eq_zero_or_pos k1 with h0 | h0
        · subst h0; simp at hpos
        · exact h0
      have hrest : rest ≠ [] := by
        intro h0
        subst h0
        simp at hpos
      obtain ⟨w1, hrun, hc, hst⟩ :=
        ih { w with anchor := { w.anchor with timeToStart := Flt.fin (r - x.1) } }
          (r - x.1) k1 p t hs rfl hp ht hrest hk1 (by linarith)
      refine ⟨w1, ?_, hc, hst⟩
      simp only [updates, List.map_cons, World.run, hstep, Option.some_bind]
      exact hrun

/-- The exact model of `update` is `updateWith` at the exact subtraction. -/
theorem EditorTaskAnchor.update_eq_updateWith :
    EditorTaskAnchor.update = EditorTaskAnchor.updateWith Flt.sub := rfl

/-- An `update` of a waiting anchor, whatever the subtraction: the remaining time
goes down by the time, and the closure is submitted when it is `0` or less. -/
theorem EditorTaskAnchor.updateWith_waiting (sub : Flt → Flt → Flt) (h : Heap)
    (c : Concurrent) (a : EditorTaskAnchor) (time : Flt) (b : Bool)
    (hs : a.status = .WaitingToStart) :
    a.updateWith sub h c time b =
      some (if Flt.le (sub a.timeToStart time) (Flt.fin 0) = true then
          (c + 1, { a with
            timeToStart := sub a.timeToStart time
            taskFuture := some c
            status := .Started })
        else (c, { a with timeToStart := sub a.timeToStart time })) := by
  simp only [EditorTaskAnchor.updateWith, hs, Concurrent.execute]
  by_cases hle : Flt.le (sub a.timeToStart time) (Flt.fin 0) = true <;> simp [hle]

/-- Once the anchor has left `WaitingToStart`, `update` calls over a valid task
return, submit nothing and do not bring it back, whatever the subtraction. -/
theorem EditorTaskAnchor.updatesWith_started (sub : Flt → Flt → Flt) (h : Heap)
    (p : TaskPtr) (t : EditorTask) (ht : h p = some t) (xs : List (Flt × Bool)) :
    ∀ (c : Concurrent) (a : EditorTaskAnchor), a.task = some p →
      a.status ≠ .WaitingToStart →
      ∃ a1, EditorTaskAnchor.updatesWith sub h (c, a) xs = some (c, a1)
        ∧ a1.status ≠ .WaitingToStart := by
  induction xs with
  | nil => intro c a _ hs; exact ⟨a, rfl, hs⟩
  | cons x rest ih =>
    intro c a hp hs
    cases hst : a.status with
    | WaitingToStart => exact absurd hst hs
    | Started =>
      cases hx : x.2 with
      | true =>
        obtain ⟨a1, hrun, hs1⟩ := ih c
          { a with status := .Done, progress := Flt.fin 1, progressLabel := "" } hp
          (by simp)
        refine ⟨a1, ?_, hs1⟩
        simp only [EditorTaskAnchor.updatesWith, EditorTaskAnchor.updateWith, hst, hx,
          if_true, Option.some_bind]
        exact hrun
      | false =>
        obtain ⟨a1, hrun, hs1⟩ := ih c
          { a with progress := t.progress, progressLabel := t.progressLabel } hp
          (by simp [hst])
        refine ⟨a1, ?_, hs1⟩
        simp only [EditorTaskAnchor.updatesWith, EditorTaskAnchor.updateWith, hst, hx,
          hp, ht, Option.some_bind, Bool.false_eq_true, if_false]
        simp only [hst, hp] at hrun
        exact hrun
    | Done =>
      obtain ⟨a1, hrun, hs1⟩ := ih c a hp hs
      refine ⟨a1, ?_, hs1⟩
      simp only [EditorTaskAnchor.updatesWith, EditorTaskAnchor.updateWith, hst,
        Option.some_bind]
      exact hrun

/-- For a waiting anchor over a valid task and every sequence of `update` calls,
whatever the subtraction: the calls return, one closure is submitted if some
call leaves the remaining time at `0` or less and none otherwise, and the anchor
is still waiting exactly when there is no such call. -/
theorem EditorTaskAnchor.updatesWith_waiting (sub : Flt → Flt → Flt) (h : Heap)
    (p : TaskPtr) (t : EditorTask) (ht : h p = some t) (xs : List (Flt × Bool)) :
    ∀ (c : Concurrent) (a : EditorTaskAnchor), a.task = some p →
      a.status = .WaitingToStart →
      ∃ c1 a1, EditorTaskAnchor.updatesWith sub h (c, a) xs = some (c1, a1)
        ∧ c1 = c + (if reaches sub a.timeToStart (xs.map Prod.fst) = true then 1 else 0)
        ∧ (a1.status = .WaitingToStart
            ↔ reaches sub a.timeToStart (xs.map Prod.fst) = false) := by
  induction xs with
  | nil =>
    intro c a _ hs
    exact ⟨c, a, rfl, by simp [reaches], by simp [reaches, hs]⟩
  | cons x rest ih =>
    intro c a hp hs
    have hstep := EditorTaskAnchor.updateWith_waiting sub h c a x.1 x.2 hs
    by_cases hle : Flt.le (sub a.timeToStart x.1) (Flt.fin 0) = true
    · rw [if_pos hle] at hstep
      obtain ⟨a1, hrun, hs1⟩ := EditorTaskAnchor.updatesWith_started sub h p t ht rest
        (c + 1) { a with
          timeToStart := sub a.timeToStart x.1
          taskFuture := some c
          status := .Started } hp (by simp)
      refine ⟨c + 1, a1, ?_, by simp [reaches, hle], by simp [reaches, hle, hs1]⟩
      simp only [EditorTaskAnchor.updatesWith, hstep, Option.some_bind]
      exact hrun
    · rw [if_neg hle] at hstep
      obtain ⟨c1, a1, hrun, hc1, hs1⟩ := ih c
        { a with timeToStart := sub a.timeToStart x.1 } hp hs
      refine ⟨c1, a1, ?_, ?_, ?_⟩
      · simp only [EditorTaskAnchor.updatesWith, hstep, Option.some_bind]
        exact hrun
      · simpa [reaches, hle] using hc1
      · simpa [reaches, hle] using hs1

/-! ### Rounding to binary32 -/

/-- The floor of the logarithm to base two of a rational that lies between two
consecutive powers of two. -/
theorem Flt.log_eq (q : ℚ) (k : ℤ) (h1 : (2 : ℚ) ^ k ≤ |q|) (h2 : |q| < (2 : ℚ) ^ (k + 1)) :
    Int.log 2 |q| = k := by
  have hpos : (0 : ℚ) < |q| := lt_of_lt_of_le (by positivity) h1
  have hb : (1 : ℕ) < 2 := by norm_num
  apply le_antisymm
  · have := (Int.lt_zpow_iff_log_lt hb hpos (x := k + 1)).mp (by simpa using h2)
    omega
  · exact (Int.zpow_le_iff_le_log hb hpos).mp (by simpa using h1)

/-- The exponent of the unit in the last place in the normal range. -/
theorem Flt.ulpExp_eq (q : ℚ) (k : ℤ) (h1 : (2 : ℚ) ^ k ≤ |q|)
    (h2 : |q| < (2 : ℚ) ^ (k + 1)) (hk : -126 ≤ k) : Flt.ulpExp q = k - 23 := by
  rw [Flt.ulpExp, Flt.log_eq q k h1 h2, if_neg (by omega)]

/-- An integer rounds to itself. -/
theorem Flt.roundEven_intCast (z : ℤ) : Flt.roundEven (z : ℚ) = z := by
  simp [Flt.roundEven]

/-- A rational halfway between two integers rounds to the even one. -/
theorem Flt.roundEven_half (f : ℤ) :
    Flt.roundEven ((f : ℚ) + 1 / 2) = if f % 2 = 0 then f else f + 1 := by
  have hfl : ⌊(f : ℚ) + 1 / 2⌋ = f := by
    rw [Int.floor_eq_iff]
    constructor <;> norm_num
  simp only [Flt.roundEven, hfl]
  norm_num

/-- A rational above the half between two integers rounds to the upper one. -/
theorem Flt.roundEven_up (q : ℚ) (f : ℤ) (h1 : (f : ℚ) + 1 / 2 < q) (h2 : q < f + 1) :
    Flt.roundEven q = f + 1 := by
  have hfl : ⌊q⌋ = f := by
    rw [Int.floor_eq_iff]
    exact ⟨by linarith, h2⟩
  simp only [Flt.roundEven, hfl]
  rw [if_neg (by linarith), if_pos (by linarith)]

/-- The value of `round32` from the exponent of the unit in the last place and
the rounded significand, when the result does not overflow. -/
theorem Flt.round32_eq (q : ℚ) (e n : ℤ) (hq : q ≠ 0) (he : Flt.ulpExp q = e)
    (hn : Flt.roundEven (q / 2 ^ e) = n) (hov : |(n : ℚ) * 2 ^ e| < 2 ^ (128 : ℕ)) :
    Flt.round32 q = Flt.fin ((n : ℚ) * 2 ^ e) := by
  simp only [Flt.round32, hq, if_false, he, hn, not_le.mpr hov]

/-- The float `1` is a binary32 value. -/
theorem Flt.round32_one : Flt.round32 1 = Flt.fin 1 := by
  have he := Flt.ulpExp_eq 1 0 (by norm_num) (by norm_num) (by norm_num)
  have hn : Flt.roundEven (1 / 2 ^ (0 - 23 : ℤ)) = 8388608 := by
    have := Flt.roundEven_intCast 8388608
    norm_num at this ⊢
    exact this
  rw [Flt.round32_eq _ _ _ (by norm_num) he hn (by norm_num [abs_of_pos])]
  norm_num

/-- The float `2 ^ -25` is a binary32 value. -/
theorem Flt.round32_tiny : Flt.round32 (1 / 33554432) = Flt.fin (1 / 33554432) := by
  have he := Flt.ulpExp_eq (1 / 33554432) (-25) (by norm_num [abs_of_pos])
    (by norm_num [abs_of_pos]) (by norm_num)
  have hn : Flt.roundEven (1 / 33554432 / 2 ^ (-25 - 23 : ℤ)) = 8388608 := by
    have := Flt.roundEven_intCast 8388608
    norm_num at this ⊢
    exact this
  rw [Flt.round32_eq _ _ _ (by norm_num) he hn (by norm_num [abs_of_pos])]
  norm_num

/-- The float `1 - 2 ^ -24` is a binary32 value. -/
theorem Flt.round32_below_one :
    Flt.round32 (16777215 / 16777216) = Flt.fin (16777215 / 16777216) := by
  have he := Flt.ulpExp_eq (16777215 / 16777216) (-1) (by norm_num [abs_of_pos])
    (by norm_num [abs_of_pos]) (by norm_num)
  have hn : Flt.roundEven (16777215 / 16777216 / 2 ^ (-1 - 23 : ℤ)) = 16777215 := by
    have := Flt.roundEven_intCast 16777215
    norm_num at this ⊢
    exact this
  rw [Flt.round32_eq _ _ _ (by norm_num) he hn (by norm_num [abs_of_pos])]
  norm_num

/-- In binary32, `1 - 2 ^ -25` is `1`: the difference lies halfway between
`1 - 2 ^ -24` and `1`, and `1` has the even significand. -/
theorem Flt.sub32_one_tiny :
    Flt.sub32 (Flt.fin 1) (Flt.fin (1 / 33554432)) = Flt.fin 1 := by
  have he := Flt.ulpExp_eq (1 - 1 / 33554432) (-1) (by norm_num [abs_of_pos])
    (by norm_num [abs_of_pos]) (by norm_num)
  have hn : Flt.roundEven ((1 - 1 / 33554432) / 2 ^ (-1 - 23 : ℤ)) = 16777216 := by
    have := Flt.roundEven_half 16777215
    norm_num at this ⊢
    exact this
  simp only [Flt.sub32, Flt.sub]
  rw [Flt.round32_eq _ _ _ (by norm_num) he hn (by norm_num [abs_of_pos])]
  norm_num

/-- In binary32, `1 - (1 - 2 ^ -24)` is `2 ^ -24`. -/
theorem Flt.sub32_one_below_one :
    Flt.sub32 (Flt.fin 1) (Flt.fin (16777215 / 16777216)) = Flt.fin (1 / 16777216) := by
  have he := Flt.ulpExp_eq (1 - 16777215 / 16777216) (-24) (by norm_num [abs_of_pos])
    (by norm_num [abs_of_pos]) (by norm_num)
  have hn : Flt.roundEven ((1 - 16777215 / 16777216) / 2 ^ (-24 - 23 : ℤ)) = 8388608 := by
    have := Flt.roundEven_intCast 8388608
    norm_num at this ⊢
    exact this
  simp only [Flt.sub32, Flt.sub]
  rw [Flt.round32_eq _ _ _ (by norm_num) he hn (by norm_num [abs_of_pos])]
  norm_num

/-- The binary32 value nearest to `0.2` is `13421773 / 2 ^ 26`. -/
theorem Flt.round32_fifth : Flt.round32 (1 / 5) = Flt.fin (13421773 / 67108864) := by
  have he := Flt.ulpExp_eq (1 / 5) (-3) (by norm_num [abs_of_pos])
    (by norm_num [abs_of_pos]) (by norm_num)
  have hn : Flt.roundEven (1 / 5 / 2 ^ (-3 - 23 : ℤ)) = 13421772 + 1 :=
    Flt.roundEven_up _ 13421772 (by norm_num) (by norm_num)
  rw [Flt.round32_eq _ _ _ (by norm_num) he hn (by norm_num [abs_of_pos])]
  norm_num

/-- The float `0.5` is a binary32 value. -/
theorem Flt.round32_half : Flt.round32 (1 / 2) = Flt.fin (1 / 2) := by
  have he := Flt.ulpExp_eq (1 / 2) (-1) (by norm_num [abs_of_pos])
    (by norm_num [abs_of_pos]) (by norm_num)
  have hn : Flt.roundEven (1 / 2 / 2 ^ (-1 - 23 : ℤ)) = 8388608 := by
    have := Flt.roundEven_intCast 8388608
    norm_num at this ⊢
    exact this
  rw [Flt.round32_eq _ _ _ (by norm_num) he hn (by norm_num [abs_of_pos])]
  norm_num

/-- In binary32, `0.5 - 0.2` is `5033165 / 2 ^ 24`. -/
theorem Flt.sub32_half_fifth :
    Flt.sub32 (Flt.fin (1 / 2)) (Flt.fin (13421773 / 67108864))
      = Flt.fin (5033165 / 16777216) := by
  have he := Flt.ulpExp_eq (1 / 2 - 13421773 / 67108864) (-2) (by norm_num [abs_of_pos])
    (by norm_num [abs_of_pos]) (by norm_num)
  have hn : Flt.roundEven ((1 / 2 - 13421773 / 67108864) / 2 ^ (-2 - 23 : ℤ))
      = 10066330 := by
    have := Flt.roundEven_half 10066329
    norm_num at this ⊢
    exact this
  simp only [Flt.sub32, Flt.sub]
  rw [Flt.round32_eq _ _ _ (by norm_num) he hn (by norm_num [abs_of_pos])]
  norm_num

/-- In binary32, `5033165 / 2 ^ 24 - 0.2` is `6710887 / 2 ^ 26`. -/
theorem Flt.sub32_second_fifth :
    Flt.sub32 (Flt.fin (5033165 / 16777216)) (Flt.fin (13421773 / 67108864))
      = Flt.fin (6710887 / 67108864) := by
  have he := Flt.ulpExp_eq (5033165 / 16777216 - 13421773 / 67108864) (-4)
    (by norm_num [abs_of_pos]) (by norm_num [abs_of_pos]) (by norm_num)
  have hn : Flt.roundEven ((5033165 / 16777216 - 13421773 / 67108864) / 2 ^ (-4 - 23 : ℤ))
      = 13421774 := by
    have := Flt.roundEven_intCast 13421774
    norm_num at this ⊢
    exact this
  simp only [Flt.sub32, Flt.sub]
  rw [Flt.round32_eq _ _ _ (by norm_num) he hn (by norm_num [abs_of_pos])]
  norm_num

/-- In binary32, `6710887 / 2 ^ 26 - 0.2` is `-3355443 / 2 ^ 25`. -/
theorem Flt.sub32_third_fifth :
    Flt.sub32 (Flt.fin (6710887 / 67108864)) (Flt.fin (13421773 / 67108864))
      = Flt.fin (-3355443 / 33554432) := by
  have he := Flt.ulpExp_eq (6710887 / 67108864 - 13421773 / 67108864) (-4)
    (by norm_num [abs_of_neg]) (by norm_num [abs_of_neg]) (by norm_num)
  have hn : Flt.roundEven ((6710887 / 67108864 - 13421773 / 67108864) / 2 ^ (-4 - 23 : ℤ))
      = -13421772 := by
    have := Flt.roundEven_intCast (-13421772)
    norm_num at this ⊢
    exact this
  simp only [Flt.sub32, Flt.sub]
  rw [Flt.round32_eq _ _ _ (by norm_num) he hn (by norm_num [abs_of_neg])]
  norm_num

/-- An `update` of a waiting anchor that leaves a remaining time above `0`. -/
theorem EditorTaskAnchor.updateWith_stay (sub : Flt → Flt → Flt) (h : Heap)
    (c : Concurrent) (a : EditorTaskAnchor) (time r : Flt) (b : Bool)
    (hs : a.status = .WaitingToStart) (hsub : sub a.timeToStart time = r)
    (hle : Flt.le r (Flt.fin 0) = false) :
    a.updateWith sub h c time b = some (c, { a with timeToStart := r }) := by
  rw [EditorTaskAnchor.updateWith_waiting sub h c a time b hs, hsub, hle]
  rfl

/-- An `update` of a waiting anchor that leaves a remaining time of `0` or less. -/
theorem EditorTaskAnchor.updateWith_go (sub : Flt → Flt → Flt) (h : Heap)
    (c : Concurrent) (a : EditorTaskAnchor) (time r : Flt) (b : Bool)
    (hs : a.status = .WaitingToStart) (hsub : sub a.timeToStart time = r)
    (hle : Flt.le r (Flt.fin 0) = true) :
    a.updateWith sub h c time b
      = some (c + 1, { a with timeToStart := r, taskFuture := some c, status := .Started }) := by
  rw [EditorTaskAnchor.updateWith_waiting sub h c a time b hs, hsub, hle]
  rfl

/-- The first call of a sequence of `update` calls. -/
theorem EditorTaskAnchor.updatesWith_cons (sub : Flt → Flt → Flt) (h : Heap)
    (c : Concurrent) (a : EditorTaskAnchor) (time : Flt) (b : Bool)
    (xs : List (Flt × Bool)) :
    EditorTaskAnchor.updatesWith sub h (c, a) ((time, b) :: xs)
      = (a.updateWith sub h c time b).bind fun s1 =>
          EditorTaskAnchor.updatesWith sub h s1 xs := rfl

/-- C3 as stated fails.  In binary32, with delay `1` and the calls
`update(2 ^ -25)`, `update(2 ^ -25)`, `update(1 - 2 ^ -24)`, all of them binary32
values whose sum is exactly `1`, the first two subtractions round back to `1`
and the third leaves `2 ^ -24`, so nothing is submitted.  With delay `+inf` and
`update(+inf)` the remaining time becomes NaN, which is not `<= 0`, and nothing
is submitted then or later, in exact arithmetic and in binary32 alike. -/
theorem update_misses_delay :
    (Flt.round32 1 = Flt.fin 1
        ∧ Flt.round32 (1 / 33554432) = Flt.fin (1 / 33554432)
        ∧ Flt.round32 (16777215 / 16777216) = Flt.fin (16777215 / 16777216)
        ∧ (1 : ℚ) ≤ 1 / 33554432 + 1 / 33554432 + 16777215 / 16777216
        ∧ ∃ a a1, EditorTaskAnchor.ctor (some 0) (Flt.fin 1) = some a
          ∧ EditorTaskAnchor.updatesWith Flt.sub32 heap0 (0, a)
              [(Flt.fin (1 / 33554432), false), (Flt.fin (1 / 33554432), false),
                (Flt.fin (16777215 / 16777216), false)] = some (0, a1)
          ∧ a1.status = .WaitingToStart)
      ∧ (EditorTaskAnchor.ctor (some 0) Flt.posInf = some worldInf.anchor
        ∧ Flt.le Flt.posInf Flt.posInf = true
        ∧ (∃ w1, worldInf.run [Op.update Flt.posInf false, Op.update (Flt.fin 1) false]
              = some w1
            ∧ w1.concurrent = worldInf.concurrent
            ∧ w1.anchor.status = .WaitingToStart)
        ∧ ∃ a1, EditorTaskAnchor.updatesWith Flt.sub32 heap0 (0, worldInf.anchor)
              [(Flt.posInf, false), (Flt.fin 1, false)] = some (0, a1)
            ∧ a1.status = .WaitingToStart) := by
  refine ⟨⟨Flt.round32_one, Flt.round32_tiny, Flt.round32_below_one, by norm_num, ?_⟩,
    rfl, rfl, ⟨_, rfl, rfl, rfl⟩, ⟨_, rfl, rfl⟩⟩
  have h1 : anchorOne.updateWith Flt.sub32 heap0 0 (Flt.fin (1 / 33554432)) false
      = some (0, anchorOne) :=
    EditorTaskAnchor.updateWith_stay Flt.sub32 heap0 0 anchorOne
      (Flt.fin (1 / 33554432)) (Flt.fin 1) false rfl Flt.sub32_one_tiny
      (by norm_num [Flt.le])
  have h3 : anchorOne.updateWith Flt.sub32 heap0 0 (Flt.fin (16777215 / 16777216)) false
      = some (0, { anchorOne with timeToStart := Flt.fin (1 / 16777216) }) :=
    EditorTaskAnchor.updateWith_stay Flt.sub32 heap0 0 anchorOne
      (Flt.fin (16777215 / 16777216)) (Flt.fin (1 / 16777216)) false rfl
      Flt.sub32_one_below_one (by norm_num [Flt.le])
  refine ⟨anchorOne, { anchorOne with timeToStart := Flt.fin (1 / 16777216) }, rfl, ?_, rfl⟩
  rw [EditorTaskAnchor.updatesWith_cons, h1, Option.some_bind,
    EditorTaskAnchor.updatesWith_cons, h1, Option.some_bind,
    EditorTaskAnchor.updatesWith_cons, h3, Option.some_bind]
  rfl

/-- In binary32 with delay `0.5`, two calls `update(0.2)` submit nothing and the
third submits. -/
theorem EditorTaskAnchor.updatesWith_half_fifth (h : Heap) (p : TaskPtr) (c : Concurrent)
    (b1 b2 b3 : Bool) :
    ∃ a a2 a3, EditorTaskAnchor.ctor (some p) (Flt.fin (1 / 2)) = some a
      ∧ EditorTaskAnchor.updatesWith Flt.sub32 h (c, a)
          [(Flt.fin (13421773 / 67108864), b1), (Flt.fin (13421773 / 67108864), b2)]
        = some (c, a2)
      ∧ a2.status = .WaitingToStart
      ∧ EditorTaskAnchor.updatesWith Flt.sub32 h (c, a)
          [(Flt.fin (13421773 / 67108864), b1), (Flt.fin (13421773 / 67108864), b2),
            (Flt.fin (13421773 / 67108864), b3)]
        = some (c + 1, a3)
      ∧ a3.status = .Started := by
  obtain ⟨a, ha, hs, hr⟩ : ∃ a, EditorTaskAnchor.ctor (some p) (Flt.fin (1 / 2)) = some a
      ∧ a.status = .WaitingToStart ∧ a.timeToStart = Flt.fin (1 / 2) := ⟨_, rfl, rfl, rfl⟩
  have h1 := EditorTaskAnchor.updateWith_stay Flt.sub32 h c a
    (Flt.fin (13421773 / 67108864)) (Flt.fin (5033165 / 16777216)) b1 hs
    (by rw [hr]; exact Flt.sub32_half_fifth) (by norm_num [Flt.le])
  have h2 := EditorTaskAnchor.updateWith_stay Flt.sub32 h c
    { a with timeToStart := Flt.fin (5033165 / 16777216) }
    (Flt.fin (13421773 / 67108864)) (Flt.fin (6710887 / 67108864)) b2 hs
    Flt.sub32_second_fifth (by norm_num [Flt.le])
  have h3 := EditorTaskAnchor.updateWith_go Flt.sub32 h c
    { a with timeToStart := Flt.fin (6710887 / 67108864) }
    (Flt.fin (13421773 / 67108864)) (Flt.fin (-3355443 / 33554432)) b3 hs
    Flt.sub32_third_fifth (by norm_num [Flt.le])
  refine ⟨a, { a with timeToStart := Flt.fin (6710887 / 67108864) },
    { a with
      timeToStart := Flt.fin (-3355443 / 33554432)
      taskFuture := some c
      status := .Started }, ha, ?_, hs, ?_, rfl⟩
  · rw [EditorTaskAnchor.updatesWith_cons, h1, Option.some_bind,
      EditorTaskAnchor.updatesWith_cons, h2, Option.some_bind]
    rfl
  · rw [EditorTaskAnchor.updatesWith_cons, h1, Option.some_bind,
      EditorTaskAnchor.updatesWith_cons, h2, Option.some_bind,
      EditorTaskAnchor.updatesWith_cons, h3, Option.some_bind]
    rfl

/-- C3, amended.  For an anchor constructed over a valid task, with any delay,
and every sequence of `update` calls with any floats and any poll outcomes,
whatever the float subtraction does (exact, or rounded to binary32): the calls
return, exactly one closure has been submitted at the end of the sequence when
some call leaves the remaining time at `0` or less (the first such call submits
it, and the calls that follow submit nothing), and none when no call does; the
anchor is still waiting exactly in the second case.  With a finite delay `d`,
finite times and exact arithmetic, some call leaves the remaining time at `0` or
less whenever the times summed over the first `k` calls (some `k >= 1`) reach
`d`, so exactly one closure has been submitted at the end of the sequence.  With
`d = 0.5` and three calls `update(0.2)`, in exact arithmetic and in binary32
alike, nothing is submitted after the second call and the closure is submitted
after the third. -/
theorem update_submits_once (w : World) (p : TaskPtr) (t : EditorTask) (d : ℚ)
    (calls : List (ℚ × Bool)) (k : Nat)
    (ha : EditorTaskAnchor.ctor (some p) (Flt.fin d) = some w.anchor)
    (ht : w.heap p = some t) (hne : calls ≠ []) (hk : 1 ≤ k)
    (hreach : d ≤ ((calls.take k).map Prod.fst).sum) :
    (∃ w1, w.run (updates calls) = some w1 ∧ w1.concurrent = w.concurrent + 1
        ∧ w1.anchor.status ≠ .WaitingToStart)
      ∧ (∀ (v : World) (b1 b2 b3 : Bool),
          EditorTaskAnchor.ctor (some p) (Flt.fin (1 / 2)) = some v.anchor →
          (∃ v2, v.run (updates [(1 / 5, b1), (1 / 5, b2)]) = some v2
              ∧ v2.concurrent = v.concurrent ∧ v2.anchor.status = .WaitingToStart)
            ∧ ∃ v3, v.run (updates [(1 / 5, b1), (1 / 5, b2), (1 / 5, b3)]) = some v3
              ∧ v3.concurrent = v.concurrent + 1 ∧ v3.anchor.status = .Started)
      ∧ (∀ (sub : Flt → Flt → Flt) (delay : Flt) (c : Concurrent)
          (xs : List (Flt × Bool)),
          ∃ a c1 a1, EditorTaskAnchor.ctor (some p) delay = some a
            ∧ EditorTaskAnchor.updatesWith sub w.heap (c, a) xs = some (c1, a1)
            ∧ c1 = c + (if reaches sub delay (xs.map Prod.fst) = true then 1 else 0)
            ∧ (a1.status = .WaitingToStart
                ↔ reaches sub delay (xs.map Prod.fst) = false))
      ∧ EditorTaskAnchor.update = EditorTaskAnchor.updateWith Flt.sub
      ∧ Flt.round32 (1 / 2) = Flt.fin (1 / 2)
      ∧ Flt.round32 (1 / 5) = Flt.fin (13421773 / 67108864)
      ∧ ∀ (c : Concurrent) (b1 b2 b3 : Bool),
          ∃ a a2 a3, EditorTaskAnchor.ctor (some p) (Flt.fin (1 / 2)) = some a
            ∧ EditorTaskAnchor.updatesWith Flt.sub32 w.heap (c, a)
                [(Flt.fin (13421773 / 67108864), b1), (Flt.fin (13421773 / 67108864), b2)]
              = some (c, a2)
            ∧ a2.status = .WaitingToStart
            ∧ EditorTaskAnchor.updatesWith Flt.sub32 w.heap (c, a)
                [(Flt.fin (13421773 / 67108864), b1), (Flt.fin (13421773 / 67108864), b2),
                  (Flt.fin (13421773 / 67108864), b3)]
              = some (c + 1, a3)
            ∧ a3.status = .Started := by
  refine ⟨?_, ?_, ?_, rfl, Flt.round32_half, Flt.round32_fifth,
    fun c b1 b2 b3 => EditorTaskAnchor.updatesWith_half_fifth w.heap p c b1 b2 b3⟩
  · simp only [EditorTaskAnchor.ctor, Option.some.injEq] at ha
    exact World.run_updates_reach calls w d k p t (by rw [← ha]) (by rw [← ha])
      (by rw [← ha]) ht hne hk hreach
  · intro v b1 b2 b3 hv
    simp only [EditorTaskAnchor.ctor, Option.some.injEq] at hv
    have hs : v.anchor.status = .WaitingToStart := by rw [← hv]
    have hr : v.anchor.timeToStart = Flt.fin (1 / 2) := by rw [← hv]
    obtain ⟨v2, hrun2, hc2, hr2, hs2⟩ :=
      World.run_updates_waiting [(1 / 5, b1), (1 / 5, b2)] v (1 / 2) hs hr
        (by
          intro x hx
          simp only [List.mem_cons, List.mem_singleton, List.not_mem_nil, or_false] at hx
          rcases hx with rfl | rfl <;> norm_num)
        (by norm_num)
    refine ⟨⟨v2, hrun2, hc2, hs2⟩, ?_⟩
    have h3 := World.step_update_waiting v2
      (1 / 2 - ([(1 / 5, b1), (1 / 5, b2)].map Prod.fst).sum) (1 / 5) b3 hs2 hr2
    rw [if_pos (by norm_num)] at h3
    have h3x : ∃ v3, v2.step (.update (Flt.fin (1 / 5)) b3) = some v3
        ∧ v3.concurrent = v2.concurrent + 1 ∧ v3.anchor.status = .Started :=
      ⟨_, h3, rfl, rfl⟩
    obtain ⟨v3, hstep3, hc3, hs3⟩ := h3x
    have happ : updates [(1 / 5, b1), (1 / 5, b2), (1 / 5, b3)]
        = updates [(1 / 5, b1), (1 / 5, b2)] ++ [Op.update (Flt.fin (1 / 5)) b3] := rfl
    refine ⟨v3, ?_, by rw [hc3, hc2], hs3⟩
    rw [happ, World.run_append, hrun2, Option.some_bind, World.run, hstep3]
    rfl
  · intro sub delay c xs
    obtain ⟨a, hctor, hpa, hsa, hra⟩ :
        ∃ a, EditorTaskAnchor.ctor (some p) delay = some a ∧ a.task = some p
          ∧ a.status = .WaitingToStart ∧ a.timeToStart = delay :=
      ⟨_, rfl, rfl, rfl, rfl⟩
    obtain ⟨c1, a1, hrun, hc1, hs1⟩ :=
      EditorTaskAnchor.updatesWith_waiting sub w.heap p t ht xs c a hpa hsa
    rw [hra] at hc1 hs1
    exact ⟨a, c1, a1, hctor, hrun, hc1, hs1⟩

/-- Witness of `update_submits_once`: delay `1/2`, three calls of `update(1/5)`
and a fourth call that polls the future. -/
theorem update_submits_once_witness :
    (∃ w1, (world0 0).run (updates [(1 / 5, false), (1 / 5, false), (1 / 5, false),
          (1 / 5, true)]) = some w1 ∧ w1.concurrent = (world0 0).concurrent + 1
        ∧ w1.anchor.status ≠ .WaitingToStart)
      ∧ (∀ (v : World) (b1 b2 b3 : Bool),
          EditorTaskAnchor.ctor (some 0) (Flt.fin (1 / 2)) = some v.anchor →
          (∃ v2, v.run (updates [(1 / 5, b1), (1 / 5, b2)]) = some v2
              ∧ v2.concurrent = v.concurrent ∧ v2.anchor.status = .WaitingToStart)
            ∧ ∃ v3, v.run (updates [(1 / 5, b1), (1 / 5, b2), (1 / 5, b3)]) = some v3
              ∧ v3.concurrent = v.concurrent + 1 ∧ v3.anchor.status = .Started)
      ∧ (∀ (sub : Flt → Flt → Flt) (delay : Flt) (c : Concurrent)
          (xs : List (Flt × Bool)),
          ∃ a c1 a1, EditorTaskAnchor.ctor (some 0) delay = some a
            ∧ EditorTaskAnchor.updatesWith sub (world0 0).heap (c, a) xs = some (c1, a1)
            ∧ c1 = c + (if reaches sub delay (xs.map Prod.fst) = true then 1 else 0)
            ∧ (a1.status = .WaitingToStart
                ↔ reaches sub delay (xs.map Prod.fst) = false))
      ∧ EditorTaskAnchor.update = EditorTaskAnchor.updateWith Flt.sub
      ∧ Flt.round32 (1 / 2) = Flt.fin (1 / 2)
      ∧ Flt.round32 (1 / 5) = Flt.fin (13421773 / 67108864)
      ∧ ∀ (c : Concurrent) (b1 b2 b3 : Bool),
          ∃ a a2 a3, EditorTaskAnchor.ctor (some 0) (Flt.fin (1 / 2)) = some a
            ∧ EditorTaskAnchor.updatesWith Flt.sub32 (world0 0).heap (c, a)
                [(Flt.fin (13421773 / 67108864), b1), (Flt.fin (13421773 / 67108864), b2)]
              = some (c, a2)
            ∧ a2.status = .WaitingToStart
            ∧ EditorTaskAnchor.updatesWith Flt.sub32 (world0 0).heap (c, a)
                [(Flt.fin (13421773 / 67108864), b1), (Flt.fin (13421773 / 67108864), b2),
                  (Flt.fin (13421773 / 67108864), b3)]
              = some (c + 1, a3)
            ∧ a3.status = .Started :=
  update_submits_once (world0 0) 0 task0 (1 / 2)
    [(1 / 5, false), (1 / 5, false), (1 / 5, false), (1 / 5, true)] 3 rfl rfl
    (by simp) (by decide) (by norm_num)

/-! ## Polling a started anchor -/

/-- C4: for an anchor in status `Started` whose future reports completion
(`hasValue` is true), `update(time)`, for every `time` and every content of the
memory (so whatever progress and label the task last stored), sets the status to
`Done`, the cached progress to `1` and the cached label to the empty string. -/
theorem update_completed (h : Heap) (c : Concurrent) (a : EditorTaskAnchor) (time : Flt)
    (hs : a.status = .Started) :
    ∃ a1, a.update h c time true = some (c, a1) ∧ a1.status = .Done
      ∧ a1.progress = Flt.fin 1 ∧ a1.getProgressLabel = "" := by
  simp only [EditorTaskAnchor.update, hs, if_true]
  exact ⟨_, rfl, rfl, rfl, rfl⟩

/-- Witness of `update_completed`: the task stored `(37/100, "scanning")` before
the future completed. -/
theorem update_completed_witness :
    ∃ a1, (anchorStarted 0).update
          (heap0.set 0 (task0.setProgress (Flt.fin (37 / 100)) "scanning")) 1
          (Flt.fin (1 / 5)) true = some (1, a1)
      ∧ a1.status = .Done ∧ a1.progress = Flt.fin 1 ∧ a1.getProgressLabel = "" :=
  update_completed (heap0.set 0 (task0.setProgress (Flt.fin (37 / 100)) "scanning")) 1
    (anchorStarted 0) (Flt.fin (1 / 5)) rfl

/-- C5: for an anchor in status `Started` over a valid task whose future has not
completed (`hasValue` is false), `update(time)` leaves the status `Started` and
makes the cached progress and label those stored in the task; after the task has
called `setProgress(37/100, "scanning")` the anchor reports `(37/100, "scanning")`. -/
theorem update_copies_progress (h : Heap) (c : Concurrent) (a : EditorTaskAnchor)
    (time : Flt) (p : TaskPtr) (t : EditorTask)
    (hs : a.status = .Started) (hp : a.task = some p) (ht : h p = some t) :
    (∃ a1, a.update h c time false = some (c, a1) ∧ a1.status = .Started
        ∧ a1.progress = t.progress ∧ a1.getProgressLabel = t.progressLabel)
      ∧ ∃ a2, a.update (h.set p (t.setProgress (Flt.fin (37 / 100)) "scanning")) c time
            false = some (c, a2)
          ∧ a2.status = .Started ∧ a2.progress = Flt.fin (37 / 100)
          ∧ a2.getProgressLabel = "scanning" := by
  constructor
  · simp only [EditorTaskAnchor.update, hs, hp, ht, Option.some_bind,
      Bool.false_eq_true, if_false]
    exact ⟨_, rfl, rfl, rfl, rfl⟩
  · simp only [EditorTaskAnchor.update, hs, hp, Heap.set_same, Option.some_bind,
      Bool.false_eq_true, if_false]
    refine ⟨_, rfl, rfl, ?_, rfl⟩
    norm_num [EditorTask.setProgress, Flt.max, Flt.min, Flt.lt]

/-- Witness of `update_copies_progress`, on the started anchor of `task0`. -/
theorem update_copies_progress_witness :
    (∃ a1, (anchorStarted 0).update heap0 1 (Flt.fin (1 / 5)) false = some (1, a1)
        ∧ a1.status = .Started
        ∧ a1.progress = task0.progress ∧ a1.getProgressLabel = task0.progressLabel)
      ∧ ∃ a2, (anchorStarted 0).update
            (heap0.set 0 (task0.setProgress (Flt.fin (37 / 100)) "scanning")) 1
            (Flt.fin (1 / 5)) false = some (1, a2)
          ∧ a2.status = .Started ∧ a2.progress = Flt.fin (37 / 100)
          ∧ a2.getProgressLabel = "scanning" :=
  update_copies_progress heap0 1 (anchorStarted 0) (Flt.fin (1 / 5)) 0 task0 rfl rfl rfl

/-! ## Cancelling -/

/-- What `cancel` returns on a valid task pointer. -/
theorem EditorTaskAnchor.cancel_valid (h : Heap) (a : EditorTaskAnchor) (p : TaskPtr)
    (t : EditorTask) (hp : a.task = some p) (ht : h p = some t) :
    a.cancel h = some
      (if t.isCancellable then h.set p { t with cancelled := true } else h,
        if a.status = .WaitingToStart then { a with status := .Done } else a) := by
  have ha1 : (if a.status = .WaitingToStart then
      { a with status := EditorTaskStatus.Done } else a).task = some p := by
    split <;> exact hp
  simp only [EditorTaskAnchor.cancel, ha1, ht]
  split <;> rfl

/-- The only status of rank two or more is `Done`. -/
theorem EditorTaskStatus.eq_Done_of_rank (s : EditorTaskStatus) (h : 2 ≤ s.rank) :
    s = .Done := by
  cases s <;> simp [EditorTaskStatus.rank] at h ⊢

/-- Whenever an operation returns, the status has not moved backwards; the task
pointer need not be valid. -/
theorem World.step_rank (w w1 : World) (op : Op) (h : w.step op = some w1) :
    w.anchor.status.rank ≤ w1.anchor.status.rank := by
  cases op with
  | update time hasValue =>
    simp only [World.step, Option.map_eq_some'] at h
    obtain ⟨r, hr, rfl⟩ := h
    simp only [EditorTaskAnchor.update] at hr
    cases hst : w.anchor.status with
    | WaitingToStart => simp [EditorTaskStatus.rank]
    | Started =>
      rw [hst] at hr
      simp only at hr
      split at hr
      · simp only [Option.some.injEq] at hr
        subst hr
        simp [EditorTaskStatus.rank]
      · split at hr
        · exact absurd hr (by simp)
        · simp only [Option.some.injEq] at hr
          subst hr
          simp [EditorTaskStatus.rank, hst]
    | Done =>
      rw [hst] at hr
      simp only [Option.some.injEq] at hr
      subst hr
      simp [hst]
  | cancel =>
    simp only [World.step, Option.map_eq_some'] at h
    obtain ⟨r, hr, rfl⟩ := h
    have hrank : w.anchor.status.rank ≤ (if w.anchor.status = .WaitingToStart then
        { w.anchor with status := EditorTaskStatus.Done } else w.anchor).status.rank := by
      split
      · next h0 => simp [h0, EditorTaskStatus.rank]
      · exact le_refl _
    simp only [EditorTaskAnchor.cancel] at hr
    split at hr
    · exact absurd hr (by simp)
    · split at hr
      · exact absurd hr (by simp)
      · split at hr <;>
        · simp only [Option.some.injEq] at hr
          subst hr
          exact hrank
  | getContinuations =>
    simp only [World.step, Option.map_eq_some'] at h
    obtain ⟨r, _, rfl⟩ := h
    exact le_refl _
  | getPendingTasks =>
    simp only [World.step, Option.map_eq_some'] at h
    obtain ⟨r, _, rfl⟩ := h
    exact le_refl _
  | task c =>
    simp only [World.step] at h
    split at h
    · exact absurd h (by simp)
    · simp only [Option.map_eq_some'] at h
      obtain ⟨r, _, rfl⟩ := h
      exact le_refl _

/-- C6: for an anchor in status `WaitingToStart` over a valid task, cancellable
or not, `cancel()` sets the status to `Done` and submits nothing, and after every
sequence of operations that follows (`update` and `cancel` with any arguments,
and the other operations too) still nothing has been submitted, so `run()` is
never invoked, and the status is `Done`. -/
theorem cancel_waiting_never_submits (w : World) (p : TaskPtr) (t : EditorTask)
    (ops : List Op) (hs : w.anchor.status = .WaitingToStart)
    (hp : w.anchor.task = some p) (ht : w.heap p = some t) :
    ∃ w1, w.step .cancel = some w1 ∧ w1.anchor.status = .Done
      ∧ w1.concurrent = w.concurrent
      ∧ ∃ w2, w1.run ops = some w2 ∧ w2.concurrent = w.concurrent
          ∧ w2.anchor.status = .Done := by
  obtain ⟨w1, t1, hstep, hp1, ht1, _, _, _⟩ := World.step_valid w .cancel p t hp ht
  have hw1 : w1.anchor.status = .Done ∧ w1.concurrent = w.concurrent := by
    simp only [World.step, EditorTaskAnchor.cancel_valid w.heap w.anchor p t hp ht,
      Option.map_some', Option.some.injEq, hs, if_true] at hstep
    subst hstep
    exact ⟨rfl, rfl⟩
  obtain ⟨w2, _, hrun, _, _, hrank, _, hsame⟩ := World.run_valid ops w1 p t1 hp1 ht1
  refine ⟨w1, hstep, hw1.1, hw1.2, w2, hrun, ?_, ?_⟩
  · rw [hsame (by simp [hw1.1]), hw1.2]
  · apply EditorTaskStatus.eq_Done_of_rank
    rw [hw1.1] at hrank
    exact hrank

/-- Witness of `cancel_waiting_never_submits`: the task at address `1` cannot be
cancelled; after `cancel()` two `update` calls that exceed the delay follow. -/
theorem cancel_waiting_never_submits_witness :
    ∃ w1, (world0 1).step .cancel = some w1 ∧ w1.anchor.status = .Done
      ∧ w1.concurrent = (world0 1).concurrent
      ∧ ∃ w2, w1.run [Op.update (Flt.fin 1) false, Op.cancel, Op.update (Flt.fin 1) true]
            = some w2
          ∧ w2.concurrent = (world0 1).concurrent ∧ w2.anchor.status = .Done :=
  cancel_waiting_never_submits (world0 1) 1 task1
    [Op.update (Flt.fin 1) false, Op.cancel, Op.update (Flt.fin 1) true] rfl rfl rfl

/-- C7: for an anchor in status `Started` over a valid task, `cancel()` returns
and leaves the anchor as it was (status `Started`); the task's `cancelled` flag
becomes true when the task is cancellable and keeps its value when it is not
(false for a task that was never cancelled); nothing else in memory changes; and
a second `cancel()` changes neither the memory nor the anchor. -/
theorem cancel_started (h : Heap) (a : EditorTaskAnchor) (p : TaskPtr) (t : EditorTask)
    (hs : a.status = .Started) (hp : a.task = some p) (ht : h p = some t) :
    ∃ h1, a.cancel h = some (h1, a) ∧ a.status = .Started
      ∧ h1 p = some { t with cancelled := if t.isCancellable then true else t.cancelled }
      ∧ (∀ q, q ≠ p → h1 q = h q)
      ∧ a.cancel h1 = some (h1, a)
      ∧ ((a.cancel h).bind fun r => r.2.cancel r.1) = a.cancel h := by
  have hne : ¬ a.status = .WaitingToStart := by simp [hs]
  have hc := EditorTaskAnchor.cancel_valid h a p t hp ht
  rw [if_neg hne] at hc
  by_cases hcan : t.isCancellable = true
  · rw [if_pos hcan] at hc
    have hc2 := EditorTaskAnchor.cancel_valid (h.set p { t with cancelled := true }) a p
      { t with cancelled := true } hp (Heap.set_same _ _ _)
    rw [if_neg hne, if_pos (show ({ t with cancelled := true } : EditorTask).isCancellable
      = true from hcan), Heap.set_set] at hc2
    refine ⟨_, hc, hs, ?_, fun q hq => Heap.set_other _ _ _ _ hq, hc2, ?_⟩
    · rw [Heap.set_same, if_pos hcan]
    · rw [hc, Option.some_bind]
      exact hc2
  · rw [if_neg hcan] at hc
    refine ⟨h, hc, hs, ?_, fun _ _ => rfl, hc, ?_⟩
    · rw [ht, if_neg hcan]
    · rw [hc, Option.some_bind]
      exact hc

/-- Witness of `cancel_started`, on the started anchor of the cancellable `task0`. -/
theorem cancel_started_witness :
    ∃ h1, (anchorStarted 0).cancel heap0 = some (h1, anchorStarted 0)
      ∧ (anchorStarted 0).status = .Started
      ∧ h1 0 = some { task0 with
          cancelled := if task0.isCancellable then true else task0.cancelled }
      ∧ (∀ q, q ≠ 0 → h1 q = heap0 q)
      ∧ (anchorStarted 0).cancel h1 = some (h1, anchorStarted 0)
      ∧ (((anchorStarted 0).cancel heap0).bind fun r => r.2.cancel r.1)
          = (anchorStarted 0).cancel heap0 :=
  cancel_started heap0 (anchorStarted 0) 0 task0 rfl rfl rfl

/-! ## The status never moves backwards -/

/-- C8: with the order `WaitingToStart < Started < Done`, every operation
(`update` with any time and any poll outcome, `cancel`, `getContinuations`,
`getPendingTasks`, and the calls on the task) on an anchor over a valid task
returns and leaves a status at least the one before; in every world, valid or
not, an operation that returns has not moved the status backwards; and an anchor
that is `Done` is `Done` after every sequence of operations. -/
theorem status_never_moves_back (w : World) (op : Op) (ops : List Op) (p : TaskPtr)
    (t : EditorTask) (hp : w.anchor.task = some p) (ht : w.heap p = some t) :
    (∃ w1, w.step op = some w1 ∧ w.anchor.status.rank ≤ w1.anchor.status.rank)
      ∧ (∀ v v1 : World, v.step op = some v1 →
          v.anchor.status.rank ≤ v1.anchor.status.rank)
      ∧ (∃ w2, w.run ops = some w2 ∧ w.anchor.status.rank ≤ w2.anchor.status.rank
          ∧ (w.anchor.status = .Done → w2.anchor.status = .Done)) := by
  obtain ⟨w1, _, hstep, _, _, hrank, _, _⟩ := World.step_valid w op p t hp ht
  obtain ⟨w2, _, hrun, _, _, hrank2, _, _⟩ := World.run_valid ops w p t hp ht
  refine ⟨⟨w1, hstep, hrank⟩, fun v v1 hv => World.step_rank v v1 op hv,
    w2, hrun, hrank2, ?_⟩
  intro hd
  apply EditorTaskStatus.eq_Done_of_rank
  rw [hd] at hrank2
  exact hrank2

/-- Witness of `status_never_moves_back`, on the started anchor of `task0`. -/
theorem status_never_moves_back_witness :
    (∃ w1, (worldStarted 0).step (.update (Flt.fin 1) true) = some w1
        ∧ (worldStarted 0).anchor.status.rank ≤ w1.anchor.status.rank)
      ∧ (∀ v v1 : World, v.step (.update (Flt.fin 1) true) = some v1 →
          v.anchor.status.rank ≤ v1.anchor.status.rank)
      ∧ (∃ w2, (worldStarted 0).run [Op.cancel, Op.update (Flt.fin 1) true,
            Op.getPendingTasks, Op.update Flt.nan false] = some w2
          ∧ (worldStarted 0).anchor.status.rank ≤ w2.anchor.status.rank
          ∧ ((worldStarted 0).anchor.status = .Done → w2.anchor.status = .Done)) :=
  status_never_moves_back (worldStarted 0) (.update (Flt.fin 1) true)
    [Op.cancel, Op.update (Flt.fin 1) true, Op.getPendingTasks, Op.update Flt.nan false]
    0 task0 rfl rfl

/-! ## Pending tasks -/

/-- The pending count after a sequence of calls on a task, from any task. -/
theorem EditorTask.foldl_call_count (self : TaskPtr) (calls : List TaskCall) :
    ∀ t : EditorTask, (calls.foldl (EditorTask.call self) t).pendingTaskCount
      = t.pendingTaskCount + (calls.countP TaskCall.isAdd : Int)
        - (calls.countP TaskCall.isDone : Int) := by
  induction calls with
  | nil => intro t; simp
  | cons k rest ih =>
    intro t
    rw [List.foldl_cons, ih]
    cases k <;>
      simp [EditorTask.call, EditorTask.setProgress, EditorTask.addContinuation,
        EditorTask.setContinuations, EditorTask.addPendingTask,
        EditorTask.onPendingTaskDone, TaskCall.isAdd, TaskCall.isDone] <;> ring

/-- C9: after every sequence of calls on a freshly constructed task (of
`addPendingTask` and `onPendingTaskDone`, and of the other methods too) the
pending count is the number of `addPendingTask` calls minus the number of
`onPendingTaskDone` calls; each `addPendingTask` raises it by one and each
`onPendingTaskDone` lowers it by one; `hasPendingTasks()` is true exactly when the
count is not zero; and over add, add, done, done the count goes 0, 1, 2, 1, 0 with
`hasPendingTasks()` false only at the start and at the end. -/
theorem pending_count (self : TaskPtr) (name : String) (isCancellable isVisible : Bool)
    (calls : List TaskCall) (t : EditorTask) (a b x y : EditorTaskAnchor) :
    (calls.foldl (EditorTask.call self) (EditorTask.ctor name isCancellable isVisible)).pendingTaskCount
        = (calls.countP TaskCall.isAdd : Int) - (calls.countP TaskCall.isDone : Int)
      ∧ ((calls.foldl (EditorTask.call self)
            (EditorTask.ctor name isCancellable isVisible)).hasPendingTasks = true
          ↔ (calls.countP TaskCall.isAdd : Int) - (calls.countP TaskCall.isDone : Int) ≠ 0)
      ∧ (EditorTask.addPendingTask self t a).pendingTaskCount = t.pendingTaskCount + 1
      ∧ (t.onPendingTaskDone x).pendingTaskCount = t.pendingTaskCount - 1
      ∧ (t.hasPendingTasks = true ↔ t.pendingTaskCount ≠ 0)
      ∧ ((List.scanl (EditorTask.call self) (EditorTask.ctor name isCancellable isVisible)
            [.addPendingTask a, .addPendingTask b, .onPendingTaskDone x,
              .onPendingTaskDone y]).map EditorTask.pendingTaskCount = [0, 1, 2, 1, 0])
      ∧ ((List.scanl (EditorTask.call self) (EditorTask.ctor name isCancellable isVisible)
            [.addPendingTask a, .addPendingTask b, .onPendingTaskDone x,
              .onPendingTaskDone y]).map EditorTask.hasPendingTasks
          = [false, true, true, true, false]) := by
  have hcount := EditorTask.foldl_call_count self calls
    (EditorTask.ctor name isCancellable isVisible)
  have h0 : (EditorTask.ctor name isCancellable isVisible).pendingTaskCount = 0 := rfl
  rw [h0, zero_add] at hcount
  refine ⟨hcount, ?_, rfl, rfl, ?_, ?_, ?_⟩
  · simp only [EditorTask.hasPendingTasks, hcount, decide_eq_true_eq]
  · simp only [EditorTask.hasPendingTasks, decide_eq_true_eq]
  · simp [List.scanl, EditorTask.call, EditorTask.addPendingTask,
      EditorTask.onPendingTaskDone, EditorTask.ctor]
  · simp [List.scanl, EditorTask.call, EditorTask.addPendingTask,
      EditorTask.onPendingTaskDone, EditorTask.ctor, EditorTask.hasPendingTasks]

/-- C10 as stated fails: after `addPendingTask` and `onPendingTaskDone` on a fresh
task the count is `0` and the list still has its entry, and after
`addPendingTask` and `getPendingTasks` the count is `1` and the list is empty. -/
theorem pending_count_not_list_length :
    (∃ w t, (world0 0).run [.task (.addPendingTask (anchor0 1)),
          .task (.onPendingTaskDone (anchor0 1))] = some w
        ∧ w.heap 0 = some t ∧ t.pendingTaskCount = 0 ∧ t.pendingTasks.length = 1)
      ∧ ∃ w t, (world0 0).run [.task (.addPendingTask (anchor0 1)), .getPendingTasks]
          = some w
        ∧ w.heap 0 = some t ∧ t.pendingTaskCount = 1 ∧ t.pendingTasks.length = 0 := by
  constructor
  · exact ⟨_, _, rfl, rfl, rfl, rfl⟩
  · exact ⟨_, _, rfl, rfl, rfl, rfl⟩

/-- One operation on an anchor over a valid task: the pending count, less the
entries of the pending list and less the entries handed out by
`getPendingTasks`, goes down by one in `onPendingTaskDone` and is kept by every
other operation; `addPendingTask` hands nothing out. -/
theorem World.step_pending (w : World) (op : Op) (p : TaskPtr) (t : EditorTask)
    (hp : w.anchor.task = some p) (ht : w.heap p = some t) :
    ∃ w1 t1, w.step op = some w1 ∧ w1.anchor.task = some p ∧ w1.heap p = some t1
      ∧ t1.pendingTaskCount + (if op.isDone then 1 else 0)
            - (t1.pendingTasks.length : Int) - (w1.gotPendingTasks.length : Int)
          = t.pendingTaskCount - (t.pendingTasks.length : Int)
            - (w.gotPendingTasks.length : Int)
      ∧ (op.isAdd = true → w1.gotPendingTasks = w.gotPendingTasks) := by
  cases op with
  | update time hasValue =>
    obtain ⟨w1, t1, hstep, hp1, ht1, _, _, _⟩ :=
      World.step_valid w (.update time hasValue) p t hp ht
    refine ⟨w1, t1, hstep, hp1, ht1, ?_, ?_⟩
    · simp only [World.step, Option.map_eq_some'] at hstep
      obtain ⟨r, _, rfl⟩ := hstep
      have ht1x : w.heap p = some t1 := ht1
      rw [ht, Option.some.injEq] at ht1x
      subst ht1x
      simp [Op.isDone]
    · intro h0; simp [Op.isAdd] at h0
  | cancel =>
    simp only [World.step, EditorTaskAnchor.cancel_valid w.heap w.anchor p t hp ht,
      Option.map_some']
    by_cases hc : t.isCancellable = true
    · refine ⟨_, { t with cancelled := true }, rfl, ?_, ?_, ?_, ?_⟩
      · show (if w.anchor.status = .WaitingToStart then
          { w.anchor with status := EditorTaskStatus.Done } else w.anchor).task = some p
        split <;> exact hp
      · simp only [hc, if_true]
        exact Heap.set_same _ _ _
      · simp [Op.isDone]
      · intro h0; simp [Op.isAdd] at h0
    · refine ⟨_, t, rfl, ?_, ?_, ?_, ?_⟩
      · show (if w.anchor.status = .WaitingToStart then
          { w.anchor with status := EditorTaskStatus.Done } else w.anchor).task = some p
        split <;> exact hp
      · simp only [hc, if_false]
        exact ht
      · simp [Op.isDone]
      · intro h0; simp [Op.isAdd] at h0
  | getContinuations =>
    simp only [World.step, EditorTaskAnchor.getContinuations, hp, ht, Option.map_some']
    refine ⟨_, _, rfl, hp, Heap.set_same _ _ _, ?_, ?_⟩
    · simp [Op.isDone]
    · intro h0; simp [Op.isAdd] at h0
  | getPendingTasks =>
    by_cases hc : t.pendingTaskCount > 0
    · simp only [World.step, EditorTaskAnchor.getPendingTasks, hp, ht, hc, if_true,
        Option.map_some']
      refine ⟨_, _, rfl, hp, Heap.set_same _ _ _, ?_, ?_⟩
      · simp only [Op.isDone, Bool.false_eq_true, if_false, List.length_append,
          List.length_nil, Nat.cast_add, Nat.cast_zero]
        ring
      · intro h0; simp [Op.isAdd] at h0
    · simp only [World.step, EditorTaskAnchor.getPendingTasks, hp, ht, hc, if_false,
        Option.map_some']
      refine ⟨_, t, rfl, hp, ht, ?_, ?_⟩
      · simp [Op.isDone]
      · intro h0; simp [Op.isAdd] at h0
  | task c =>
    simp only [World.step, hp, ht, Option.map_some']
    refine ⟨_, _, rfl, hp, Heap.set_same _ _ _, ?_, fun _ => rfl⟩
    cases c <;>
      simp [EditorTask.call, EditorTask.setProgress, EditorTask.addContinuation,
        EditorTask.setContinuations, EditorTask.addPendingTask,
        EditorTask.onPendingTaskDone, Op.isDone, TaskCall.isDone]

/-- The accounting of `World.step_pending` over a sequence of operations. -/
theorem World.run_pending (ops : List Op) :
    ∀ (w : World) (p : TaskPtr) (t : EditorTask),
      w.anchor.task = some p → w.heap p = some t →
      ∃ w1 t1, w.run ops = some w1 ∧ w1.anchor.task = some p ∧ w1.heap p = some t1
        ∧ t1.pendingTaskCount + (ops.countP Op.isDone : Int)
              - (t1.pendingTasks.length : Int) - (w1.gotPendingTasks.length : Int)
            = t.pendingTaskCount - (t.pendingTasks.length : Int)
              - (w.gotPendingTasks.length : Int)
        ∧ ((∀ op ∈ ops, op.isAdd = true) → w1.gotPendingTasks = w.gotPendingTasks) := by
  induction ops with
  | nil =>
    intro w p t hp ht
    exact ⟨w, t, rfl, hp, ht, by simp, fun _ => rfl⟩
  | cons op rest ih =>
    intro w p t hp ht
    obtain ⟨w1, t1, hstep, hp1, ht1, hacc1, hadd1⟩ := World.step_pending w op p t hp ht
    obtain ⟨w2, t2, hrun, hp2, ht2, hacc2, hadd2⟩ := ih w1 p t1 hp1 ht1
    refine ⟨w2, t2, ?_, hp2, ht2, ?_, ?_⟩
    · simp only [World.run, hstep, Option.some_bind]
      exact hrun
    · rw [List.countP_cons]
      by_cases hd : op.isDone = true
      · simp only [hd, if_true] at hacc1 ⊢
        push_cast
        linarith
      · simp only [hd, Bool.false_eq_true, if_false, add_zero] at hacc1 ⊢
        linarith
    · intro hall
      rw [hadd2 (fun o ho => hall o (List.mem_cons_of_mem _ ho)),
        hadd1 (hall op (List.mem_cons_self _ _))]

/-- C10, amended: in every state reached from a freshly constructed task through
operations of its owning anchor and calls on the task (`addPendingTask`,
`onPendingTaskDone`, `getPendingTasks`, and the others), `pendingTaskCount`
equals the number of entries in `pendingTasks`, plus the number of entries
`getPendingTasks` has handed out so far, minus the number of `onPendingTaskDone`
calls so far; after `addPendingTask` calls alone it equals the number of entries
in `pendingTasks`. -/
theorem pending_count_accounting (w : World) (p : TaskPtr) (name : String)
    (isCancellable isVisible : Bool) (ops : List Op) (children : List EditorTaskAnchor)
    (hp : w.anchor.task = some p)
    (ht : w.heap p = some (EditorTask.ctor name isCancellable isVisible))
    (hg : w.gotPendingTasks = []) :
    (∃ w1 t1, w.run ops = some w1 ∧ w1.heap p = some t1
        ∧ t1.pendingTaskCount = (t1.pendingTasks.length : Int)
            + (w1.gotPendingTasks.length : Int) - (ops.countP Op.isDone : Int))
      ∧ ∃ w2 t2, w.run (children.map fun c => Op.task (.addPendingTask c)) = some w2
          ∧ w2.heap p = some t2
          ∧ t2.pendingTaskCount = (t2.pendingTasks.length : Int) := by
  constructor
  · obtain ⟨w1, t1, hrun, _, ht1, hacc, _⟩ := World.run_pending ops w p _ hp ht
    simp only [EditorTask.ctor, hg, List.length_nil, Nat.cast_zero, sub_zero] at hacc
    exact ⟨w1, t1, hrun, ht1, by linarith⟩
  · obtain ⟨w2, t2, hrun, _, ht2, hacc, hadd⟩ :=
      World.run_pending (children.map fun c => Op.task (.addPendingTask c)) w p _ hp ht
    have hall : ∀ op ∈ children.map (fun c => Op.task (.addPendingTask c)),
        op.isAdd = true := by
      intro op hop
      obtain ⟨c, _, rfl⟩ := List.mem_map.mp hop
      rfl
    have hnone : (children.map fun c => Op.task (.addPendingTask c)).countP Op.isDone
        = 0 := by
      rw [List.countP_eq_zero]
      intro op hop
      obtain ⟨c, _, rfl⟩ := List.mem_map.mp hop
      simp [Op.isDone, TaskCall.isDone]
    rw [hadd hall, hg, hnone] at hacc
    simp only [EditorTask.ctor, List.length_nil, Nat.cast_zero, sub_zero, add_zero]
      at hacc
    exact ⟨w2, t2, hrun, ht2, by linarith⟩

/-- Witness of `pending_count_accounting`: two children registered, both handed
out, one of them done; and two children registered. -/
theorem pending_count_accounting_witness :
    (∃ w1 t1, (world0 0).run [.task (.addPendingTask (anchor0 1)),
          .task (.addPendingTask (anchor0 1)), .getPendingTasks,
          .task (.onPendingTaskDone (anchor0 1))] = some w1
        ∧ w1.heap 0 = some t1
        ∧ t1.pendingTaskCount = (t1.pendingTasks.length : Int)
            + (w1.gotPendingTasks.length : Int)
            - (([.task (.addPendingTask (anchor0 1)), .task (.addPendingTask (anchor0 1)),
                .getPendingTasks, .task (.onPendingTaskDone (anchor0 1))] :
                  List Op).countP Op.isDone : Int))
      ∧ ∃ w2 t2, (world0 0).run
            ([anchor0 1, anchor0 1].map fun c => Op.task (.addPendingTask c)) = some w2
          ∧ w2.heap 0 = some t2
          ∧ t2.pendingTaskCount = (t2.pendingTasks.length : Int) :=
  pending_count_accounting (world0 0) 0 "import" true true
    [.task (.addPendingTask (anchor0 1)), .task (.addPendingTask (anchor0 1)),
      .getPendingTasks, .task (.onPendingTaskDone (anchor0 1))]
    [anchor0 1, anchor0 1] rfl rfl rfl

/-! ## Construction of an anchor -/

/-- C16: the constructor of `EditorTaskAnchor` fails exactly when the task passed
to it is null; with a task that is not null it succeeds for every delay, and the
anchor owns that task, has status `WaitingToStart` and has `timeToStart` equal to
the delay. -/
theorem anchor_ctor_fails_iff_null (t : Option TaskPtr) (delay : Flt) (p : TaskPtr) :
    (EditorTaskAnchor.ctor t delay = none ↔ t = none)
      ∧ ∃ a, EditorTaskAnchor.ctor (some p) delay = some a ∧ a.task = some p
          ∧ a.status = .WaitingToStart ∧ a.timeToStart = delay := by
  constructor
  · cases t with
    | none => simp [EditorTaskAnchor.ctor]
    | some q => simp [EditorTaskAnchor.ctor]
  · exact ⟨_, rfl, rfl, rfl, rfl⟩

/-! ## Continuations and pending tasks, handed out -/

/-- The continuation list after a sequence of calls is the one the specification
describes. -/
theorem EditorTask.foldl_call_continuations (self : TaskPtr) (calls : List TaskCall) :
    ∀ t : EditorTask, (calls.foldl (EditorTask.call self) t).continuations
      = specContinuations t.continuations calls := by
  induction calls with
  | nil => intro t; rfl
  | cons k rest ih =>
    intro t
    rw [List.foldl_cons, ih]
    cases k <;> rfl

/-- The pending list after a sequence of calls: the registered children are
appended in order. -/
theorem EditorTask.foldl_call_pendingTasks (self : TaskPtr) (calls : List TaskCall) :
    ∀ t : EditorTask, (calls.foldl (EditorTask.call self) t).pendingTasks
      = t.pendingTasks ++ registeredChildren self calls := by
  induction calls with
  | nil => intro t; simp [registeredChildren]
  | cons k rest ih =>
    intro t
    rw [List.foldl_cons, ih]
    cases k <;>
      simp [EditorTask.call, EditorTask.setProgress, EditorTask.addContinuation,
        EditorTask.setContinuations, EditorTask.addPendingTask,
        EditorTask.onPendingTaskDone, registeredChildren]

/-- Without `onPendingTaskDone` calls the pending count goes up by the number of
registered children. -/
theorem EditorTask.foldl_call_count_registered (self : TaskPtr) (calls : List TaskCall) :
    ∀ t : EditorTask, (∀ k ∈ calls, k.isDone = false) →
      (calls.foldl (EditorTask.call self) t).pendingTaskCount
        = t.pendingTaskCount + ((registeredChildren self calls).length : Int) := by
  induction calls with
  | nil => intro t _; simp [registeredChildren]
  | cons k rest ih =>
    intro t hnd
    rw [List.foldl_cons, ih _ (fun x hx => hnd x (List.mem_cons_of_mem _ hx))]
    have hk := hnd k (List.mem_cons_self _ _)
    cases k with
    | onPendingTaskDone a => simp [TaskCall.isDone] at hk
    | addPendingTask a =>
      simp only [EditorTask.call, EditorTask.addPendingTask, registeredChildren,
        List.length_cons, Nat.cast_add, Nat.cast_one]
      ring
    | setProgress q l => simp [EditorTask.call, EditorTask.setProgress, registeredChildren]
    | addContinuation a =>
      simp [EditorTask.call, EditorTask.addContinuation, registeredChildren]
    | setContinuations l =>
      simp [EditorTask.call, EditorTask.setContinuations, registeredChildren]

/-- Every registered child has its parent set to the task. -/
theorem registeredChildren_parent (self : TaskPtr) (calls : List TaskCall) :
    ∀ c ∈ registeredChildren self calls, c.parent = some self := by
  induction calls with
  | nil => intro c hc; simp [registeredChildren] at hc
  | cons k rest ih =>
    intro c hc
    cases k with
    | addPendingTask a =>
      simp only [registeredChildren, List.mem_cons] at hc
      rcases hc with rfl | hc
      · rfl
      · exact ih c hc
    | setProgress q l => exact ih c hc
    | addContinuation a => exact ih c hc
    | setContinuations l => exact ih c hc
    | onPendingTaskDone a => exact ih c hc

/-- The children registered by `addPendingTask` calls alone. -/
theorem registeredChildren_map (self : TaskPtr) (children : List EditorTaskAnchor) :
    registeredChildren self (children.map TaskCall.addPendingTask)
      = children.map fun c => c.setParent self := by
  induction children with
  | nil => rfl
  | cons c rest ih => simp [registeredChildren, ih]

/-- What `getContinuations` returns on a valid task pointer. -/
theorem EditorTaskAnchor.getContinuations_valid (h : Heap) (a : EditorTaskAnchor)
    (p : TaskPtr) (t : EditorTask) (hp : a.task = some p) (ht : h p = some t) :
    a.getContinuations h
      = some (h.set p { t with continuations := [] }, t.continuations) := by
  simp only [EditorTaskAnchor.getContinuations, hp, ht]

/-- What `getPendingTasks` returns on a valid task pointer. -/
theorem EditorTaskAnchor.getPendingTasks_valid (h : Heap) (a : EditorTaskAnchor)
    (p : TaskPtr) (t : EditorTask) (hp : a.task = some p) (ht : h p = some t) :
    a.getPendingTasks h
      = if t.pendingTaskCount > 0 then
          some (h.set p { t with pendingTasks := [] }, t.pendingTasks)
        else some (h, []) := by
  simp only [EditorTaskAnchor.getPendingTasks, hp, ht]

/-- C12: for a task whose continuation list was built from construction by
`setContinuations` and `addContinuation` calls (other calls may come in between),
the first `getContinuations()` on its anchor, whatever the status of the anchor
(`Done` included), returns the list the specification describes, in order, and
leaves the task with an empty continuation list and otherwise unchanged; a
second `getContinuations()` returns the empty list. -/
theorem getContinuations_once (h : Heap) (a : EditorTaskAnchor) (p : TaskPtr)
    (name : String) (isCancellable isVisible : Bool) (calls : List TaskCall)
    (hp : a.task = some p)
    (ht : h p = some (calls.foldl (EditorTask.call p)
      (EditorTask.ctor name isCancellable isVisible))) :
    ∃ h1 h2, a.getContinuations h = some (h1, specContinuations [] calls)
      ∧ h1 p = some { calls.foldl (EditorTask.call p)
          (EditorTask.ctor name isCancellable isVisible) with continuations := [] }
      ∧ a.getContinuations h1 = some (h2, []) := by
  have hcont := EditorTask.foldl_call_continuations p calls
    (EditorTask.ctor name isCancellable isVisible)
  have e1 := EditorTaskAnchor.getContinuations_valid h a p _ hp ht
  have e2 := EditorTaskAnchor.getContinuations_valid _ a p _ hp
    (Heap.set_same h p { calls.foldl (EditorTask.call p)
      (EditorTask.ctor name isCancellable isVisible) with continuations := [] })
  rw [hcont] at e1
  exact ⟨_, _, e1, Heap.set_same _ _ _, e2⟩

/-- Witness of `getContinuations_once`: a list is set, one anchor is appended. -/
theorem getContinuations_once_witness :
    ∃ h1 h2, (anchorStarted 0).getContinuations
          (heap0.set 0 ([TaskCall.setContinuations [anchor0 1, anchor0 2],
            TaskCall.addContinuation (anchor0 3)].foldl (EditorTask.call 0)
              (EditorTask.ctor "import" true true)))
        = some (h1, specContinuations [] [TaskCall.setContinuations [anchor0 1, anchor0 2],
            TaskCall.addContinuation (anchor0 3)])
      ∧ h1 0 = some { [TaskCall.setContinuations [anchor0 1, anchor0 2],
            TaskCall.addContinuation (anchor0 3)].foldl (EditorTask.call 0)
              (EditorTask.ctor "import" true true) with continuations := [] }
      ∧ (anchorStarted 0).getContinuations h1 = some (h2, []) :=
  getContinuations_once _ (anchorStarted 0) 0 "import" true true
    [TaskCall.setContinuations [anchor0 1, anchor0 2], TaskCall.addContinuation (anchor0 3)]
    rfl (Heap.set_same _ _ _)

/-- C13: for a task that, from construction, registered children through
`addPendingTask` and had no `onPendingTaskDone` call and no earlier
`getPendingTasks`, the first `getPendingTasks()` on its anchor, whatever the
status of the anchor (`Done` included), returns the registered children in the
order of registration, each with its parent set to the task (for the children
`c1, ..., cn` registered by `addPendingTask` calls alone: `c1, ..., cn` with the
parent set), and leaves the pending list of the task empty; a second
`getPendingTasks()` returns the empty list. -/
theorem getPendingTasks_once (h : Heap) (a : EditorTaskAnchor) (p : TaskPtr)
    (name : String) (isCancellable isVisible : Bool) (calls : List TaskCall)
    (children : List EditorTaskAnchor)
    (hp : a.task = some p)
    (ht : h p = some (calls.foldl (EditorTask.call p)
      (EditorTask.ctor name isCancellable isVisible)))
    (hnd : ∀ k ∈ calls, k.isDone = false) :
    (∃ h1 h2 t1, a.getPendingTasks h = some (h1, registeredChildren p calls)
        ∧ (∀ c ∈ registeredChildren p calls, c.parent = some p)
        ∧ h1 p = some t1 ∧ t1.pendingTasks = []
        ∧ a.getPendingTasks h1 = some (h2, []))
      ∧ registeredChildren p (children.map TaskCall.addPendingTask)
          = children.map fun c => c.setParent p := by
  refine ⟨?_, registeredChildren_map p children⟩
  have hlist := EditorTask.foldl_call_pendingTasks p calls
    (EditorTask.ctor name isCancellable isVisible)
  have hcount := EditorTask.foldl_call_count_registered p calls
    (EditorTask.ctor name isCancellable isVisible) hnd
  have hl0 : (EditorTask.ctor name isCancellable isVisible).pendingTasks = [] := rfl
  have hc0 : (EditorTask.ctor name isCancellable isVisible).pendingTaskCount = 0 := rfl
  rw [hl0, List.nil_append] at hlist
  rw [hc0, zero_add] at hcount
  have e1 := EditorTaskAnchor.getPendingTasks_valid h a p _ hp ht
  by_cases hpos : (calls.foldl (EditorTask.call p)
      (EditorTask.ctor name isCancellable isVisible)).pendingTaskCount > 0
  · have e2 := EditorTaskAnchor.getPendingTasks_valid _ a p _ hp
      (Heap.set_same h p { calls.foldl (EditorTask.call p)
        (EditorTask.ctor name isCancellable isVisible) with pendingTasks := [] })
    rw [if_pos hpos, hlist] at e1
    rw [if_pos hpos] at e2
    exact ⟨_, _, _, e1, registeredChildren_parent p calls, Heap.set_same _ _ _, rfl, e2⟩
  · have hlen : (registeredChildren p calls).length = 0 := by
      have h0 : ((registeredChildren p calls).length : Int) ≤ 0 := by
        rw [← hcount]; exact not_lt.mp hpos
      omega
    have hnil : registeredChildren p calls = [] := List.length_eq_zero.mp hlen
    rw [if_neg hpos] at e1
    refine ⟨h, h, _, ?_, registeredChildren_parent p calls, ht, ?_, e1⟩
    · rw [hnil]; exact e1
    · rw [hlist, hnil]

/-- Witness of `getPendingTasks_once`: two children registered, with a
`setProgress` call in between. -/
theorem getPendingTasks_once_witness :
    (∃ h1 h2 t1, (anchorStarted 0).getPendingTasks
            (heap0.set 0 ([TaskCall.addPendingTask (anchor0 1),
              TaskCall.setProgress (Flt.fin (1 / 2)) "half",
              TaskCall.addPendingTask (anchor0 2)].foldl (EditorTask.call 0)
                (EditorTask.ctor "import" true true)))
          = some (h1, registeredChildren 0 [TaskCall.addPendingTask (anchor0 1),
              TaskCall.setProgress (Flt.fin (1 / 2)) "half",
              TaskCall.addPendingTask (anchor0 2)])
        ∧ (∀ c ∈ registeredChildren 0 [TaskCall.addPendingTask (anchor0 1),
              TaskCall.setProgress (Flt.fin (1 / 2)) "half",
              TaskCall.addPendingTask (anchor0 2)], c.parent = some 0)
        ∧ h1 0 = some t1 ∧ t1.pendingTasks = []
        ∧ (anchorStarted 0).getPendingTasks h1 = some (h2, []))
      ∧ registeredChildren 0 ([anchor0 1, anchor0 2].map TaskCall.addPendingTask)
          = [anchor0 1, anchor0 2].map fun c => c.setParent 0 :=
  getPendingTasks_once _ (anchorStarted 0) 0 "import" true true
    [TaskCall.addPendingTask (anchor0 1), TaskCall.setProgress (Flt.fin (1 / 2)) "half",
      TaskCall.addPendingTask (anchor0 2)]
    [anchor0 1, anchor0 2] rfl (Heap.set_same _ _ _)
    (by
      intro k hk
      simp only [List.mem_cons, List.mem_singleton, List.not_mem_nil, or_false] at hk
      rcases hk with rfl | rfl | rfl <;> rfl)

/-! ## The cancelled flag and the stored progress -/

/-- The progress stored by `setProgress` lies between `0` and `1`, for every
float. -/
theorem EditorTask.setProgress_inUnit (t : EditorTask) (p : Flt) (label : String) :
    Flt.inUnit (t.setProgress p label).progress := by
  cases p with
  | nan => norm_num [EditorTask.setProgress, Flt.max, Flt.min, Flt.lt, Flt.le, Flt.inUnit]
  | negInf =>
    norm_num [EditorTask.setProgress, Flt.max, Flt.min, Flt.lt, Flt.le, Flt.inUnit]
  | posInf =>
    norm_num [EditorTask.setProgress, Flt.max, Flt.min, Flt.lt, Flt.le, Flt.inUnit]
  | fin q =>
    by_cases h1 : (1 : ℚ) < q
    · norm_num [EditorTask.setProgress, Flt.max, Flt.min, Flt.lt, Flt.le, Flt.inUnit, h1]
    · by_cases h0 : (0 : ℚ) < q
      · simp only [EditorTask.setProgress, Flt.max, Flt.min, Flt.lt, Flt.le, Flt.inUnit,
          h1, h0, decide_False, decide_True, Bool.false_eq_true, if_false, if_true,
          decide_eq_true_eq]
        exact ⟨le_of_lt h0, not_lt.mp h1⟩
      · norm_num [EditorTask.setProgress, Flt.max, Flt.min, Flt.lt, Flt.le, Flt.inUnit,
          h1, h0]

/-- One operation on an anchor over a valid task: it returns, the task keeps its
cancellable policy, a flag that is set stays set, a flag is set only on a
cancellable task, and a stored progress between `0` and `1` stays so. -/
theorem World.step_task_fields (w : World) (op : Op) (p : TaskPtr) (t : EditorTask)
    (hp : w.anchor.task = some p) (ht : w.heap p = some t) :
    ∃ w1 t1, w.step op = some w1 ∧ w1.anchor.task = some p ∧ w1.heap p = some t1
      ∧ t1.isCancellable = t.isCancellable
      ∧ (t.cancelled = true → t1.cancelled = true)
      ∧ (t1.cancelled = true → t.cancelled = true ∨ t.isCancellable = true)
      ∧ (Flt.inUnit t.progress → Flt.inUnit t1.progress) := by
  cases op with
  | update time hasValue =>
    obtain ⟨w1, t1, hstep, hp1, ht1, _, _, _⟩ :=
      World.step_valid w (.update time hasValue) p t hp ht
    have heq : t1 = t := by
      simp only [World.step, Option.map_eq_some'] at hstep
      obtain ⟨r, _, rfl⟩ := hstep
      have ht1x : w.heap p = some t1 := ht1
      rw [ht, Option.some.injEq] at ht1x
      exact ht1x.symm
    subst heq
    exact ⟨w1, t1, hstep, hp1, ht1, rfl, id, Or.inl, id⟩
  | cancel =>
    have ha1 : (if w.anchor.status = .WaitingToStart then
        { w.anchor with status := EditorTaskStatus.Done } else w.anchor).task = some p := by
      split <;> exact hp
    simp only [World.step, EditorTaskAnchor.cancel_valid w.heap w.anchor p t hp ht,
      Option.map_some']
    by_cases hc : t.isCancellable = true
    · refine ⟨_, { t with cancelled := true }, rfl, ha1, ?_, rfl, fun _ => rfl,
        fun _ => Or.inr hc, id⟩
      simp only [hc, if_true]
      exact Heap.set_same _ _ _
    · refine ⟨_, t, rfl, ha1, ?_, rfl, id, Or.inl, id⟩
      simp only [hc, if_false]
      exact ht
  | getContinuations =>
    simp only [World.step, EditorTaskAnchor.getContinuations, hp, ht, Option.map_some']
    exact ⟨_, _, rfl, hp, Heap.set_same _ _ _, rfl, id, Or.inl, id⟩
  | getPendingTasks =>
    by_cases hc : t.pendingTaskCount > 0
    · simp only [World.step, EditorTaskAnchor.getPendingTasks, hp, ht, hc, if_true,
        Option.map_some']
      exact ⟨_, _, rfl, hp, Heap.set_same _ _ _, rfl, id, Or.inl, id⟩
    · simp only [World.step, EditorTaskAnchor.getPendingTasks, hp, ht, hc, if_false,
        Option.map_some']
      exact ⟨_, t, rfl, hp, ht, rfl, id, Or.inl, id⟩
  | task c =>
    simp only [World.step, hp, ht, Option.map_some']
    refine ⟨_, _, rfl, hp, Heap.set_same _ _ _, ?_, ?_, ?_, ?_⟩
    · cases c <;> rfl
    · cases c <;> exact id
    · cases c <;> exact Or.inl
    · cases c with
      | setProgress q l => exact fun _ => EditorTask.setProgress_inUnit t q l
      | addContinuation a => exact id
      | setContinuations l => exact id
      | addPendingTask a => exact id
      | onPendingTaskDone a => exact id

/-- The facts of `World.step_task_fields` over a sequence of operations. -/
theorem World.run_task_fields (ops : List Op) :
    ∀ (w : World) (p : TaskPtr) (t : EditorTask),
      w.anchor.task = some p → w.heap p = some t →
      ∃ w1 t1, w.run ops = some w1 ∧ w1.anchor.task = some p ∧ w1.heap p = some t1
        ∧ t1.isCancellable = t.isCancellable
        ∧ (t.cancelled = true → t1.cancelled = true)
        ∧ (t1.cancelled = true → t.cancelled = true ∨ t.isCancellable = true)
        ∧ (Flt.inUnit t.progress → Flt.inUnit t1.progress) := by
  induction ops with
  | nil =>
    intro w p t hp ht
    exact ⟨w, t, rfl, hp, ht, rfl, id, Or.inl, id⟩
  | cons op rest ih =>
    intro w p t hp ht
    obtain ⟨w1, t1, hstep, hp1, ht1, hic1, hst1, hset1, hpr1⟩ :=
      World.step_task_fields w op p t hp ht
    obtain ⟨w2, t2, hrun, hp2, ht2, hic2, hst2, hset2, hpr2⟩ := ih w1 p t1 hp1 ht1
    refine ⟨w2, t2, ?_, hp2, ht2, hic2.trans hic1, fun hc => hst2 (hst1 hc), ?_,
      fun hu => hpr2 (hpr1 hu)⟩
    · simp only [World.run, hstep, Option.some_bind]
      exact hrun
    · intro hc
      rcases hset2 hc with h1 | h1
      · exact hset1 h1
      · exact Or.inr (hic1 ▸ h1)

/-- C17: the `cancelled` flag is false on a freshly constructed task; on a task
whose flag is true, every operation of the task or of its anchor (`setProgress`,
`addContinuation`, `setContinuations`, `addPendingTask`, `onPendingTaskDone`,
`update`, `cancel`, `getContinuations`, `getPendingTasks`) returns and leaves the
flag true, and so does every sequence of them; and after every sequence of
operations on a task constructed with `isCancellable = false` the flag is false. -/
theorem cancelled_sticky (w : World) (p : TaskPtr) (t : EditorTask) (op : Op)
    (ops : List Op) (name : String) (isCancellable isVisible : Bool)
    (hp : w.anchor.task = some p) (ht : w.heap p = some t)
    (hc : t.cancelled = true) :
    (EditorTask.ctor name isCancellable isVisible).cancelled = false
      ∧ (∃ w1 t1, w.step op = some w1 ∧ w1.heap p = some t1 ∧ t1.cancelled = true)
      ∧ (∃ w2 t2, w.run ops = some w2 ∧ w2.heap p = some t2 ∧ t2.cancelled = true)
      ∧ ∃ w3 t3, ({ w with heap := w.heap.set p (EditorTask.ctor name false isVisible) } :
            World).run ops = some w3
          ∧ w3.heap p = some t3 ∧ t3.cancelled = false := by
  obtain ⟨w1, t1, hstep, _, ht1, _, hst1, _, _⟩ := World.step_task_fields w op p t hp ht
  obtain ⟨w2, t2, hrun, _, ht2, _, hst2, _, _⟩ := World.run_task_fields ops w p t hp ht
  obtain ⟨w3, t3, hrun3, _, ht3, _, _, hset3, _⟩ :=
    World.run_task_fields ops
      { w with heap := w.heap.set p (EditorTask.ctor name false isVisible) } p
      (EditorTask.ctor name false isVisible) hp (Heap.set_same _ _ _)
  refine ⟨rfl, ⟨w1, t1, hstep, ht1, hst1 hc⟩, ⟨w2, t2, hrun, ht2, hst2 hc⟩,
    w3, t3, hrun3, ht3, ?_⟩
  cases h3 : t3.cancelled with
  | false => rfl
  | true =>
    rcases hset3 h3 with h0 | h0
    · exact absurd h0 (by simp [EditorTask.ctor])
    · exact absurd h0 (by simp [EditorTask.ctor])

/-- Witness of `cancelled_sticky`: the task at address `0` has been cancelled. -/
theorem cancelled_sticky_witness :
    (EditorTask.ctor "scan" true true).cancelled = false
      ∧ (∃ w1 t1, ({ worldStarted 0 with
              heap := heap0.set 0 { task0 with cancelled := true } } : World).step
            (.task (.setProgress (Flt.fin (1 / 2)) "half")) = some w1
          ∧ w1.heap 0 = some t1 ∧ t1.cancelled = true)
      ∧ (∃ w2 t2, ({ worldStarted 0 with
              heap := heap0.set 0 { task0 with cancelled := true } } : World).run
            [Op.cancel, Op.update (Flt.fin 1) false, Op.getContinuations] = some w2
          ∧ w2.heap 0 = some t2 ∧ t2.cancelled = true)
      ∧ ∃ w3 t3, ({ ({ worldStarted 0 with
              heap := heap0.set 0 { task0 with cancelled := true } } : World) with
              heap := (heap0.set 0 { task0 with cancelled := true }).set 0
                (EditorTask.ctor "scan" false true) } : World).run
            [Op.cancel, Op.update (Flt.fin 1) false, Op.getContinuations] = some w3
          ∧ w3.heap 0 = some t3 ∧ t3.cancelled = false :=
  cancelled_sticky
    { worldStarted 0 with heap := heap0.set 0 { task0 with cancelled := true } } 0
    { task0 with cancelled := true } (.task (.setProgress (Flt.fin (1 / 2)) "half"))
    [Op.cancel, Op.update (Flt.fin 1) false, Op.getContinuations] "scan" true true
    rfl rfl rfl

/-- C18: the stored progress of a freshly constructed task is `0`, and after every
sequence of operations of the task and of its anchor, `setProgress` with any
floats among them, the stored progress satisfies `0 <= progress` and
`progress <= 1`. -/
theorem progress_in_unit (w : World) (p : TaskPtr) (ops : List Op) (name : String)
    (isCancellable isVisible : Bool) (hp : w.anchor.task = some p) :
    (EditorTask.ctor name isCancellable isVisible).progress = Flt.fin 0
      ∧ ∃ w1 t1, ({ w with
            heap := w.heap.set p (EditorTask.ctor name isCancellable isVisible) } :
            World).run ops = some w1
          ∧ w1.heap p = some t1
          ∧ Flt.le (Flt.fin 0) t1.progress = true
          ∧ Flt.le t1.progress (Flt.fin 1) = true := by
  obtain ⟨w1, t1, hrun, _, ht1, _, _, _, hpr⟩ :=
    World.run_task_fields ops
      { w with heap := w.heap.set p (EditorTask.ctor name isCancellable isVisible) } p
      (EditorTask.ctor name isCancellable isVisible) hp (Heap.set_same _ _ _)
  have h0 : Flt.inUnit (EditorTask.ctor name isCancellable isVisible).progress := by
    norm_num [EditorTask.ctor, Flt.inUnit, Flt.le]
  exact ⟨rfl, w1, t1, hrun, ht1, (hpr h0).1, (hpr h0).2⟩

/-- Witness of `progress_in_unit`: `setProgress` with NaN, with `7`, with minus
infinity and with `-3`, and operations of the anchor in between. -/
theorem progress_in_unit_witness :
    (EditorTask.ctor "import" true true).progress = Flt.fin 0
      ∧ ∃ w1 t1, ({ world0 0 with
            heap := (world0 0).heap.set 0 (EditorTask.ctor "import" true true) } :
            World).run
            [.task (.setProgress Flt.nan "a"), .update (Flt.fin 1) false,
              .task (.setProgress (Flt.fin 7) "b"), .update (Flt.fin 1) false,
              .task (.setProgress Flt.negInf "c"), .cancel,
              .task (.setProgress (Flt.fin (-3)) "d")] = some w1
          ∧ w1.heap 0 = some t1
          ∧ Flt.le (Flt.fin 0) t1.progress = true
          ∧ Flt.le t1.progress (Flt.fin 1) = true :=
  progress_in_unit (world0 0) 0
    [.task (.setProgress Flt.nan "a"), .update (Flt.fin 1) false,
      .task (.setProgress (Flt.fin 7) "b"), .update (Flt.fin 1) false,
      .task (.setProgress Flt.negInf "c"), .cancel,
      .task (.setProgress (Flt.fin (-3)) "d")] "import" true true rfl

/-! ## The destructor -/

/-- The loop of the destructor is not entered when the status is not `Started`. -/
theorem EditorTaskAnchor.busyWait_not_started (status : EditorTaskStatus)
    (polls : List Bool) (hs : status ≠ .Started) :
    EditorTaskAnchor.busyWait status polls = some polls := by
  cases polls with
  | nil => simp [EditorTaskAnchor.busyWait, hs]
  | cons b rest => simp [EditorTaskAnchor.busyWait, hs]

/-- The loop of the destructor of a started anchor is left when a poll reports
completion. -/
theorem EditorTaskAnchor.busyWait_started_of_mem (polls : List Bool)
    (hm : true ∈ polls) :
    ∃ rest, EditorTaskAnchor.busyWait .Started polls = some rest := by
  induction polls with
  | nil => simp at hm
  | cons b rest ih =>
    cases b with
    | true => exact ⟨rest, by simp [EditorTaskAnchor.busyWait]⟩
    | false =>
      have hm1 : true ∈ rest := by simpa using hm
      obtain ⟨r, hr⟩ := ih hm1
      exact ⟨r, by simp [EditorTaskAnchor.busyWait, hr]⟩

/-- When the loop of the destructor of a started anchor is left, its last poll
reported completion and those before did not. -/
theorem EditorTaskAnchor.busyWait_started_some (polls rest : List Bool)
    (hb : EditorTaskAnchor.busyWait .Started polls = some rest) :
    ∃ pre, polls = pre ++ true :: rest ∧ ∀ b ∈ pre, b = false := by
  induction polls with
  | nil => simp [EditorTaskAnchor.busyWait] at hb
  | cons b tl ih =>
    cases b with
    | true =>
      simp only [EditorTaskAnchor.busyWait, if_true, Option.some.injEq] at hb
      subst hb
      exact ⟨[], rfl, by simp⟩
    | false =>
      simp only [EditorTaskAnchor.busyWait, if_true, Bool.false_eq_true, if_false] at hb
      obtain ⟨pre, hpre, hall⟩ := ih hb
      refine ⟨false :: pre, by rw [hpre]; rfl, ?_⟩
      intro x hx
      simp only [List.mem_cons] at hx
      rcases hx with rfl | hx
      · rfl
      · exact hall x hx

/-- With all polls negative the loop of the destructor of a started anchor is
still spinning. -/
theorem EditorTaskAnchor.busyWait_started_none (polls : List Bool)
    (hall : ∀ b ∈ polls, b = false) :
    EditorTaskAnchor.busyWait .Started polls = none := by
  induction polls with
  | nil => simp [EditorTaskAnchor.busyWait]
  | cons b tl ih =>
    have hb : b = false := hall b (List.mem_cons_self _ _)
    subst hb
    simp only [EditorTaskAnchor.busyWait, if_true, Bool.false_eq_true, if_false]
    exact ih fun x hx => hall x (List.mem_cons_of_mem _ hx)

/-- What the destructor returns for an anchor over a valid task, when the loop is
left: the memory after `cancel()` (called unless the status is `Done`), with the
pending count of the parent, if there is one, lowered by one. -/
theorem EditorTaskAnchor.dtor_valid (h : Heap) (a : EditorTaskAnchor) (p : TaskPtr)
    (t : EditorTask) (polls : List Bool) (hp : a.task = some p) (ht : h p = some t)
    (hpoll : a.status = .Started → true ∈ polls) :
    a.dtor h polls =
      match a.parent with
      | none =>
        some (if a.status ≠ .Done ∧ t.isCancellable = true then
          h.set p { t with cancelled := true } else h)
      | some q =>
        ((if a.status ≠ .Done ∧ t.isCancellable = true then
            h.set p { t with cancelled := true } else h) q).map fun pt =>
          (if a.status ≠ .Done ∧ t.isCancellable = true then
            h.set p { t with cancelled := true } else h).set q (pt.onPendingTaskDone a) := by
  have hc := EditorTaskAnchor.cancel_valid h a p t hp ht
  cases hst : a.status with
  | Done =>
    simp only [EditorTaskAnchor.dtor, hp, hst, ne_eq, not_true_eq_false, if_false,
      false_and]
    cases a.parent with
    | none => rfl
    | some q =>
      simp only
      cases h q <;> rfl
  | WaitingToStart =>
    rw [hst, if_pos rfl] at hc
    simp only [EditorTaskAnchor.dtor, hp, hst, hc, ne_eq, reduceCtorEq, not_false_eq_true,
      if_true, true_and,
      EditorTaskAnchor.busyWait_not_started .Done polls (by simp), Option.map_some']
    cases a.parent with
    | none => by_cases hcan : t.isCancellable = true <;> simp [hcan]
    | some q =>
      by_cases hcan : t.isCancellable = true
      · simp only [if_pos hcan]
        cases (h.set p { t with cancelled := true }) q <;> rfl
      · simp only [if_neg hcan]
        cases h q <;> rfl
  | Started =>
    rw [hst, if_neg (show ¬ EditorTaskStatus.Started = .WaitingToStart by simp)] at hc
    obtain ⟨rest, hrest⟩ := EditorTaskAnchor.busyWait_started_of_mem polls (hpoll hst)
    simp only [EditorTaskAnchor.dtor, hp, hst, hc, ne_eq, reduceCtorEq, not_false_eq_true,
      if_true, true_and, hrest, Option.map_some']
    cases a.parent with
    | none => by_cases hcan : t.isCancellable = true <;> simp [hcan]
    | some q =>
      by_cases hcan : t.isCancellable = true
      · simp only [if_pos hcan]
        cases (h.set p { t with cancelled := true }) q <;> rfl
      · simp only [if_neg hcan]
        cases h q <;> rfl

/-- The `cancel()` of the destructor changes no pending count. -/
theorem Heap.count_after_cancel (h : Heap) (p : TaskPtr) (t : EditorTask) (c : Prop)
    [Decidable c] (ht : h p = some t) (r : TaskPtr) :
    ((if c then h.set p { t with cancelled := true } else h) r).map
        EditorTask.pendingTaskCount
      = (h r).map EditorTask.pendingTaskCount := by
  by_cases hc : c
  · rw [if_pos hc]
    by_cases hr : r = p
    · subst hr
      rw [Heap.set_same, ht]
      rfl
    · rw [Heap.set_other _ _ _ _ hr]
  · rw [if_neg hc]

/-- C14: the destructor of an anchor that owns a valid task and has a valid
parent, in every status (for status `Started`, when some poll of the future
reports completion, so that the loop is left), returns and lowers the pending
count of the parent by exactly one, leaving the pending count of every other
task as it was; for the same anchor without a parent it leaves every pending
count as it was; and for a moved-from anchor (no task) it leaves the memory as
it was. -/
theorem dtor_notifies_parent (h : Heap) (a : EditorTaskAnchor) (p q : TaskPtr)
    (t pt : EditorTask) (polls : List Bool)
    (hp : a.task = some p) (ht : h p = some t)
    (hq : a.parent = some q) (hpt : h q = some pt)
    (hpoll : a.status = .Started → true ∈ polls) :
    (∃ h2 pt2, a.dtor h polls = some h2 ∧ h2 q = some pt2
        ∧ pt2.pendingTaskCount = pt.pendingTaskCount - 1
        ∧ ∀ r, r ≠ q → (h2 r).map EditorTask.pendingTaskCount
            = (h r).map EditorTask.pendingTaskCount)
      ∧ (∃ h3, ({ a with parent := none } : EditorTaskAnchor).dtor h polls = some h3
          ∧ ∀ r, (h3 r).map EditorTask.pendingTaskCount
              = (h r).map EditorTask.pendingTaskCount)
      ∧ ({ a with task := none } : EditorTaskAnchor).dtor h polls = some h := by
  refine ⟨?_, ?_, rfl⟩
  · have hd := EditorTaskAnchor.dtor_valid h a p t polls hp ht hpoll
    simp only [hq] at hd
    have hcq := Heap.count_after_cancel h p t (a.status ≠ .Done ∧ t.isCancellable = true)
      ht q
    rw [hpt, Option.map_some'] at hcq
    obtain ⟨pt1, hpt1, hcount1⟩ := Option.map_eq_some'.mp hcq
    rw [hpt1, Option.map_some'] at hd
    refine ⟨_, _, hd, Heap.set_same _ _ _, ?_, ?_⟩
    · show pt1.pendingTaskCount - 1 = pt.pendingTaskCount - 1
      rw [hcount1]
    · intro r hr
      rw [Heap.set_other _ _ _ _ hr]
      exact Heap.count_after_cancel h p t _ ht r
  · have hd := EditorTaskAnchor.dtor_valid h { a with parent := none } p t polls hp ht hpoll
    simp only at hd
    exact ⟨_, hd, fun r => Heap.count_after_cancel h p t _ ht r⟩

/-- Witness of `dtor_notifies_parent`: a started child of the task at address `0`
is destroyed; the third poll of its future reports completion. -/
theorem dtor_notifies_parent_witness :
    (∃ h2 pt2, (child0 .Started).dtor heap0 [false, false, true] = some h2
        ∧ h2 0 = some pt2
        ∧ pt2.pendingTaskCount = task0.pendingTaskCount - 1
        ∧ ∀ r, r ≠ 0 → (h2 r).map EditorTask.pendingTaskCount
            = (heap0 r).map EditorTask.pendingTaskCount)
      ∧ (∃ h3, ({ child0 .Started with parent := none } : EditorTaskAnchor).dtor heap0
            [false, false, true] = some h3
          ∧ ∀ r, (h3 r).map EditorTask.pendingTaskCount
              = (heap0 r).map EditorTask.pendingTaskCount)
      ∧ ({ child0 .Started with task := none } : EditorTaskAnchor).dtor heap0
          [false, false, true] = some heap0 :=
  dtor_notifies_parent heap0 (child0 .Started) 1 0 task1 task0 [false, false, true]
    rfl rfl rfl rfl (fun _ => by decide)

/-! ## Destruction joins the work -/

/-- The destructor of a started anchor without parent, over a valid task: it
returns when the loop is left, with the memory after `cancel()`. -/
theorem EditorTaskAnchor.dtor_started (h : Heap) (a : EditorTaskAnchor) (p : TaskPtr)
    (t : EditorTask) (polls : List Bool) (hp : a.task = some p) (ht : h p = some t)
    (hs : a.status = .Started) (hpar : a.parent = none) :
    a.dtor h polls = (EditorTaskAnchor.busyWait .Started polls).map fun _ =>
      if t.isCancellable = true then h.set p { t with cancelled := true } else h := by
  have hc := EditorTaskAnchor.cancel_valid h a p t hp ht
  rw [hs, if_neg (show ¬ EditorTaskStatus.Started = .WaitingToStart by simp)] at hc
  simp only [EditorTaskAnchor.dtor, hp, hs, hc, ne_eq, reduceCtorEq, not_false_eq_true,
    if_true]
  cases EditorTaskAnchor.busyWait .Started polls with
  | none => rfl
  | some rest => simp only [Option.map_some', hpar]

/-- An operation that returns keeps the task pointer and the parent of the anchor,
and moves the status and the number of submitted closures as the state machine
says: `Done` stays; `Started` stays or becomes `Done` on a poll that reports
completion, submitting nothing; `WaitingToStart` becomes `Started`, or submits
nothing and stays or becomes `Done`. -/
theorem World.step_status (w w1 : World) (op : Op) (hstep : w.step op = some w1) :
    w1.anchor.task = w.anchor.task ∧ w1.anchor.parent = w.anchor.parent
      ∧ (w.anchor.status = .Done →
          w1.anchor.status = .Done ∧ w1.concurrent = w.concurrent)
      ∧ (w.anchor.status = .Started →
          w1.concurrent = w.concurrent
            ∧ (w1.anchor.status = .Started
              ∨ (w1.anchor.status = .Done ∧ w.stepObserved op = true)))
      ∧ (w.anchor.status = .WaitingToStart →
          w1.anchor.status = .Started
            ∨ (w1.concurrent = w.concurrent
              ∧ (w1.anchor.status = .WaitingToStart ∨ w1.anchor.status = .Done))) := by
  cases op with
  | update time hasValue =>
    simp only [World.step, Option.map_eq_some'] at hstep
    obtain ⟨r, hr, rfl⟩ := hstep
    simp only [EditorTaskAnchor.update] at hr
    cases hst : w.anchor.status with
    | WaitingToStart =>
      rw [hst] at hr
      simp only at hr
      split at hr
      · simp only [Option.some.injEq] at hr
        subst hr
        simp
      · simp only [Option.some.injEq] at hr
        subst hr
        simp [hst]
    | Started =>
      rw [hst] at hr
      simp only at hr
      split at hr
      · next hv =>
        simp only [Option.some.injEq] at hr
        subst hr
        simp [World.stepObserved, hst, hv]
      · split at hr
        · exact absurd hr (by simp)
        · simp only [Option.some.injEq] at hr
          subst hr
          simp [hst]
    | Done =>
      rw [hst] at hr
      simp only [Option.some.injEq] at hr
      subst hr
      simp [hst]
  | cancel =>
    simp only [World.step, Option.map_eq_some'] at hstep
    obtain ⟨r, hr, rfl⟩ := hstep
    simp only [EditorTaskAnchor.cancel] at hr
    split at hr
    · exact absurd hr (by simp)
    · split at hr
      · exact absurd hr (by simp)
      · have hr2 : r.2 = if w.anchor.status = .WaitingToStart then
            { w.anchor with status := EditorTaskStatus.Done } else w.anchor := by
          split at hr <;>
          · simp only [Option.some.injEq] at hr
            rw [← hr]
        cases hst : w.anchor.status <;> simp [hr2, hst]
  | getContinuations =>
    simp only [World.step, Option.map_eq_some'] at hstep
    obtain ⟨r, _, rfl⟩ := hstep
    cases hst : w.anchor.status <;> simp [hst]
  | getPendingTasks =>
    simp only [World.step, Option.map_eq_some'] at hstep
    obtain ⟨r, _, rfl⟩ := hstep
    cases hst : w.anchor.status <;> simp [hst]
  | task c =>
    simp only [World.step] at hstep
    split at hstep
    · exact absurd hstep (by simp)
    · simp only [Option.map_eq_some'] at hstep
      obtain ⟨r, _, rfl⟩ := hstep
      cases hst : w.anchor.status <;> simp [hst]

/-- A poll that reports completion in the first operation is one of the sequence. -/
theorem World.observed_head (w : World) (op : Op) (ops : List Op)
    (h : w.stepObserved op = true) : w.observed (op :: ops) = true := by
  simp [World.observed, h]

/-- A poll that reports completion after the first operation is one of the
sequence. -/
theorem World.observed_tail (w w1 : World) (op : Op) (ops : List Op)
    (hstep : w.step op = some w1) (h : w1.observed ops = true) :
    w.observed (op :: ops) = true := by
  simp [World.observed, hstep, h]

/-- The facts of `World.step_status` over a sequence of operations. -/
theorem World.run_status (ops : List Op) :
    ∀ (w w1 : World), w.run ops = some w1 →
      w1.anchor.task = w.anchor.task ∧ w1.anchor.parent = w.anchor.parent
        ∧ (w.anchor.status = .Done →
            w1.anchor.status = .Done ∧ w1.concurrent = w.concurrent)
        ∧ (w.anchor.status = .Started →
            w1.concurrent = w.concurrent
              ∧ (w1.anchor.status = .Started
                ∨ (w1.anchor.status = .Done ∧ w.observed ops = true)))
        ∧ (w.anchor.status = .WaitingToStart →
            w1.anchor.status = .Started
              ∨ (w1.anchor.status = .Done ∧ w.observed ops = true)
              ∨ (w1.concurrent = w.concurrent
                ∧ (w1.anchor.status = .WaitingToStart ∨ w1.anchor.status = .Done))) := by
  induction ops with
  | nil =>
    intro w w1 hrun
    simp only [World.run, Option.some.injEq] at hrun
    subst hrun
    refine ⟨rfl, rfl, fun hs => ⟨hs, rfl⟩, fun hs => ⟨rfl, Or.inl hs⟩,
      fun hs => Or.inr (Or.inr ⟨rfl, Or.inl hs⟩)⟩
  | cons op rest ih =>
    intro w w1 hrun
    simp only [World.run] at hrun
    cases hstep : w.step op with
    | none => rw [hstep] at hrun; exact absurd hrun (by simp)
    | some wm =>
      rw [hstep, Option.some_bind] at hrun
      obtain ⟨ht1, hp1, hd1, hs1, hw1⟩ := World.step_status w wm op hstep
      obtain ⟨ht2, hp2, hd2, hs2, hw2⟩ := ih wm w1 hrun
      refine ⟨ht2.trans ht1, hp2.trans hp1, ?_, ?_, ?_⟩
      · intro hs
        obtain ⟨hm, hc⟩ := hd1 hs
        obtain ⟨hm2, hc2⟩ := hd2 hm
        exact ⟨hm2, hc2.trans hc⟩
      · intro hs
        obtain ⟨hc, hm⟩ := hs1 hs
        rcases hm with hm | ⟨hm, hobs⟩
        · obtain ⟨hc2, hm2⟩ := hs2 hm
          refine ⟨hc2.trans hc, ?_⟩
          rcases hm2 with hm2 | ⟨hm2, hobs2⟩
          · exact Or.inl hm2
          · exact Or.inr ⟨hm2, World.observed_tail w wm op rest hstep hobs2⟩
        · obtain ⟨hm2, hc2⟩ := hd2 hm
          exact ⟨hc2.trans hc, Or.inr ⟨hm2, World.observed_head w op rest hobs⟩⟩
      · intro hs
        rcases hw1 hs with hm | ⟨hc, hm | hm⟩
        · obtain ⟨_, hm2⟩ := hs2 hm
          rcases hm2 with hm2 | ⟨hm2, hobs2⟩
          · exact Or.inl hm2
          · exact Or.inr (Or.inl ⟨hm2, World.observed_tail w wm op rest hstep hobs2⟩)
        · rcases hw2 hm with hm2 | ⟨hm2, hobs2⟩ | ⟨hc2, hm2⟩
          · exact Or.inl hm2
          · exact Or.inr (Or.inl ⟨hm2, World.observed_tail w wm op rest hstep hobs2⟩)
          · exact Or.inr (Or.inr ⟨hc2.trans hc, hm2⟩)
        · obtain ⟨hm2, hc2⟩ := hd2 hm
          exact Or.inr (Or.inr ⟨hc2.trans hc, Or.inr hm2⟩)

/-- C15: for an anchor constructed over a valid task and then taken through any
sequence of operations (`update` and `cancel` among them), if the destructor
returns, then, when the status was not `Done`, it has called `cancel()` (the
memory it leaves is the one `cancel()` returns), and either no closure was ever
submitted for the task, or a poll of the future made by an `update` reported
completion, or the last poll of the loop of the destructor reported completion.
The destructor returns whenever some poll reports completion, and for a started
anchor it does not return while every poll is negative. -/
theorem dtor_joins (w w1 : World) (p : TaskPtr) (t : EditorTask) (delay : Flt)
    (ops : List Op) (polls : List Bool) (h2 : Heap)
    (ha : EditorTaskAnchor.ctor (some p) delay = some w.anchor)
    (ht : w.heap p = some t) (hrun : w.run ops = some w1)
    (hd : w1.anchor.dtor w1.heap polls = some h2) :
    (w1.anchor.status ≠ .Done →
        ∃ ac, w1.anchor.cancel w1.heap = some (h2, ac))
      ∧ (w1.concurrent = w.concurrent ∨ w.observed ops = true
          ∨ ∃ pre rest, polls = pre ++ true :: rest ∧ ∀ b ∈ pre, b = false)
      ∧ (∀ polls2 : List Bool, true ∈ polls2 →
          ∃ h3, w1.anchor.dtor w1.heap polls2 = some h3)
      ∧ (w1.anchor.status = .Started → ∀ polls2 : List Bool,
          (∀ b ∈ polls2, b = false) → w1.anchor.dtor w1.heap polls2 = none) := by
  simp only [EditorTaskAnchor.ctor, Option.some.injEq] at ha
  have hp0 : w.anchor.task = some p := by rw [← ha]
  have hs0 : w.anchor.status = .WaitingToStart := by rw [← ha]
  have hpar0 : w.anchor.parent = none := by rw [← ha]
  obtain ⟨wx, t1, hrunx, hp1, ht1, _, _, _⟩ := World.run_valid ops w p t hp0 ht
  rw [hrun, Option.some.injEq] at hrunx
  subst hrunx
  obtain ⟨_, hpar1, _, _, hw⟩ := World.run_status ops w w1 hrun
  rw [hpar0] at hpar1
  have hvalid := fun (ps : List Bool) (hps : w1.anchor.status = .Started → true ∈ ps) =>
    EditorTaskAnchor.dtor_valid w1.heap w1.anchor p t1 ps hp1 ht1 hps
  simp only [hpar1] at hvalid
  refine ⟨?_, ?_, ?_, ?_⟩
  · intro hnd
    have hc := EditorTaskAnchor.cancel_valid w1.heap w1.anchor p t1 hp1 ht1
    have hh : h2 = if t1.isCancellable = true then
        w1.heap.set p { t1 with cancelled := true } else w1.heap := by
      cases hst : w1.anchor.status with
      | Done => exact absurd hst hnd
      | WaitingToStart =>
        have hv := hvalid polls (by simp [hst])
        rw [hd, Option.some.injEq] at hv
        rw [hv]
        simp [hst]
      | Started =>
        have hv := EditorTaskAnchor.dtor_started w1.heap w1.anchor p t1 polls hp1 ht1 hst
          hpar1
        rw [hd] at hv
        obtain ⟨rest, _, hh⟩ := Option.map_eq_some'.mp hv.symm
        exact hh.symm
    rw [hh]
    exact ⟨_, hc⟩
  · rcases hw hs0 with hm | ⟨_, hobs⟩ | ⟨hc, _⟩
    · have hv := EditorTaskAnchor.dtor_started w1.heap w1.anchor p t1 polls hp1 ht1 hm hpar1
      rw [hd] at hv
      obtain ⟨rest, hrest, _⟩ := Option.map_eq_some'.mp hv.symm
      obtain ⟨pre, hpre, hall⟩ := EditorTaskAnchor.busyWait_started_some polls rest hrest
      exact Or.inr (Or.inr ⟨pre, rest, hpre, hall⟩)
    · exact Or.inr (Or.inl hobs)
    · exact Or.inl hc
  · intro polls2 hmem
    exact ⟨_, hvalid polls2 (fun _ => hmem)⟩
  · intro hst polls2 hall
    rw [EditorTaskAnchor.dtor_started w1.heap w1.anchor p t1 polls2 hp1 ht1 hst hpar1,
      EditorTaskAnchor.busyWait_started_none polls2 hall]
    rfl

/-- Witness of `dtor_joins`: the anchor of `world0 0` is started by `update(1)`
and then destroyed; the second poll of the loop reports completion. -/
theorem dtor_joins_witness :
    (worldSubmitted.anchor.status ≠ .Done →
        ∃ ac, worldSubmitted.anchor.cancel worldSubmitted.heap
          = some (heap0.set 0 { task0 with cancelled := true }, ac))
      ∧ (worldSubmitted.concurrent = (world0 0).concurrent
          ∨ (world0 0).observed [Op.update (Flt.fin 1) false] = true
          ∨ ∃ pre rest, [false, true] = pre ++ true :: rest ∧ ∀ b ∈ pre, b = false)
      ∧ (∀ polls2 : List Bool, true ∈ polls2 →
          ∃ h3, worldSubmitted.anchor.dtor worldSubmitted.heap polls2 = some h3)
      ∧ (worldSubmitted.anchor.status = .Started → ∀ polls2 : List Bool,
          (∀ b ∈ polls2, b = false) →
            worldSubmitted.anchor.dtor worldSubmitted.heap polls2 = none) :=
  dtor_joins (world0 0) worldSubmitted 0 task0 (Flt.fin (1 / 2))
    [Op.update (Flt.fin 1) false] [false, true]
    (heap0.set 0 { task0 with cancelled := true }) rfl rfl
    (by
      have hstep := World.step_update_waiting (world0 0) (1 / 2) 1 false rfl rfl
      rw [if_pos (by norm_num)] at hstep
      simp only [World.run, hstep, Option.some_bind]
      rfl)
    rfl

/-! ## The pending count under the destruction of children -/

/-- A `cancel()` that returns keeps every task in memory, with its pending count
and its pending list. -/
theorem EditorTaskAnchor.cancel_preserves (h h1 : Heap) (a a1 : EditorTaskAnchor)
    (hc : a.cancel h = some (h1, a1)) (r : TaskPtr) (t : EditorTask)
    (hr : h r = some t) :
    ∃ t1, h1 r = some t1 ∧ t1.pendingTaskCount = t.pendingTaskCount
      ∧ t1.pendingTasks = t.pendingTasks := by
  simp only [EditorTaskAnchor.cancel] at hc
  split at hc
  · exact absurd hc (by simp)
  · next q _ =>
    split at hc
    · exact absurd hc (by simp)
    · next u hu =>
      split at hc
      · simp only [Option.some.injEq, Prod.mk.injEq] at hc
        obtain ⟨hh, _⟩ := hc
        subst hh
        by_cases hrq : r = q
        · subst hrq
          rw [hu, Option.some.injEq] at hr
          subst hr
          exact ⟨_, Heap.set_same _ _ _, rfl, rfl⟩
        · exact ⟨t, by rw [Heap.set_other _ _ _ _ hrq]; exact hr, rfl, rfl⟩
      · simp only [Option.some.injEq, Prod.mk.injEq] at hc
        obtain ⟨hh, _⟩ := hc
        subst hh
        exact ⟨t, hr, rfl, rfl⟩

/-- The notification of the parent at the end of the destructor keeps every task
in memory with its pending list, and lowers a pending count by at most one. -/
theorem Heap.notify_preserves (h h2 : Heap) (parent : Option TaskPtr)
    (a : EditorTaskAnchor)
    (hn : (match parent with
      | none => some h
      | some q =>
        match h q with
        | none => none
        | some pt => some (h.set q (pt.onPendingTaskDone a))) = some h2)
    (r : TaskPtr) (t : EditorTask) (hr : h r = some t) :
    ∃ t2, h2 r = some t2 ∧ t2.pendingTasks = t.pendingTasks
      ∧ t.pendingTaskCount - 1 ≤ t2.pendingTaskCount
      ∧ t2.pendingTaskCount ≤ t.pendingTaskCount := by
  cases parent with
  | none =>
    simp only [Option.some.injEq] at hn
    subst hn
    exact ⟨t, hr, rfl, by omega, le_refl _⟩
  | some q =>
    simp only at hn
    cases hq : h q with
    | none => rw [hq] at hn; exact absurd hn (by simp)
    | some pt =>
      rw [hq] at hn
      simp only [Option.some.injEq] at hn
      subst hn
      by_cases hrq : r = q
      · subst hrq
        rw [hq, Option.some.injEq] at hr
        subst hr
        refine ⟨_, Heap.set_same _ _ _, rfl, ?_, ?_⟩
        · simp [EditorTask.onPendingTaskDone]
        · simp [EditorTask.onPendingTaskDone]
      · exact ⟨t, by rw [Heap.set_other _ _ _ _ hrq]; exact hr, rfl, by omega, le_refl _⟩

/-- A destructor that returns keeps every task in memory with its pending list,
and lowers a pending count by at most one. -/
theorem EditorTaskAnchor.dtor_preserves (h h2 : Heap) (a : EditorTaskAnchor)
    (polls : List Bool) (hd : a.dtor h polls = some h2) (r : TaskPtr) (t : EditorTask)
    (hr : h r = some t) :
    ∃ t2, h2 r = some t2 ∧ t2.pendingTasks = t.pendingTasks
      ∧ t.pendingTaskCount - 1 ≤ t2.pendingTaskCount
      ∧ t2.pendingTaskCount ≤ t.pendingTaskCount := by
  simp only [EditorTaskAnchor.dtor] at hd
  split at hd
  · simp only [Option.some.injEq] at hd
    subst hd
    exact ⟨t, hr, rfl, by omega, le_refl _⟩
  · split at hd
    · exact absurd hd (by simp)
    · next x0 x1 x2 joined hj =>
      by_cases hdone : a.status ≠ .Done
      · rw [if_pos hdone] at hj
        cases hc : a.cancel h with
        | none => rw [hc] at hj; exact absurd hj (by simp)
        | some c =>
          rw [hc] at hj
          simp only [Option.map_eq_some'] at hj
          obtain ⟨_, _, hj2⟩ := hj
          subst hj2
          obtain ⟨t1, hr1, hc1, hl1⟩ :=
            EditorTaskAnchor.cancel_preserves h c.1 a c.2 hc r t hr
          obtain ⟨t2, hr2, hl2, hlo, hhi⟩ :=
            Heap.notify_preserves c.1 h2 c.2.parent c.2 hd r t1 hr1
          exact ⟨t2, hr2, hl2.trans hl1, by omega, by omega⟩
      · rw [if_neg hdone, Option.some.injEq] at hj
        subst hj
        exact Heap.notify_preserves h h2 a.parent a hd r t hr

/-- One event other than a direct call of `onPendingTaskDone`: the entries of
the pending list and the children held by the caller stay, together, at most the
pending count. -/
theorem World.event_pending (w w1 : World) (e : Event) (p : TaskPtr) (t : EditorTask)
    (hp : w.anchor.task = some p) (ht : w.heap p = some t)
    (hinv : (t.pendingTasks.length : Int) + (w.gotPendingTasks.length : Int)
      ≤ t.pendingTaskCount)
    (he : e.isDirectDone = false) (hev : w.event e = some w1) :
    ∃ t1, w1.anchor.task = some p ∧ w1.heap p = some t1
      ∧ (t1.pendingTasks.length : Int) + (w1.gotPendingTasks.length : Int)
        ≤ t1.pendingTaskCount := by
  cases e with
  | op o =>
    obtain ⟨wx, t1, hstep, hp1, ht1, hacc, _⟩ := World.step_pending w o p t hp ht
    simp only [World.event] at hev
    rw [hev, Option.some.injEq] at hstep
    subst hstep
    have ho : o.isDone = false := he
    simp only [ho, Bool.false_eq_true, if_false, add_zero] at hacc
    exact ⟨t1, hp1, ht1, by linarith⟩
  | childUpdate i time hasValue =>
    simp only [World.event] at hev
    split at hev
    · exact absurd hev (by simp)
    · simp only [Option.map_eq_some'] at hev
      obtain ⟨r, _, rfl⟩ := hev
      exact ⟨t, hp, ht, by simpa using hinv⟩
  | childCancel i =>
    simp only [World.event] at hev
    split at hev
    · exact absurd hev (by simp)
    · next c _ =>
      simp only [Option.map_eq_some'] at hev
      obtain ⟨r, hr, rfl⟩ := hev
      obtain ⟨t1, ht1, hc1, hl1⟩ :=
        EditorTaskAnchor.cancel_preserves w.heap r.1 c r.2 hr p t ht
      refine ⟨t1, hp, ht1, ?_⟩
      simp only [List.length_set]
      rw [hl1, hc1]
      exact hinv
  | childDestroy i polls =>
    simp only [World.event] at hev
    split at hev
    · exact absurd hev (by simp)
    · next c hget =>
      simp only [Option.map_eq_some'] at hev
      obtain ⟨h2, hd, rfl⟩ := hev
      obtain ⟨t2, ht2, hl2, hlo, _⟩ :=
        EditorTaskAnchor.dtor_preserves w.heap h2 c polls hd p t ht
      have hi : i < w.gotPendingTasks.length := by
        obtain ⟨hlt, _⟩ := List.get?_eq_some.mp hget
        exact hlt
      refine ⟨t2, hp, ht2, ?_⟩
      show (t2.pendingTasks.length : Int) + ((w.gotPendingTasks.eraseIdx i).length : Int)
        ≤ t2.pendingTaskCount
      rw [List.length_eraseIdx_of_lt hi, hl2]
      have hpos : 1 ≤ w.gotPendingTasks.length := by omega
      push_cast [Nat.cast_sub hpos]
      linarith

/-- The bound of `World.event_pending` over a sequence of events. -/
theorem World.play_pending (events : List Event) :
    ∀ (w w1 : World) (p : TaskPtr) (t : EditorTask),
      w.anchor.task = some p → w.heap p = some t →
      (t.pendingTasks.length : Int) + (w.gotPendingTasks.length : Int)
        ≤ t.pendingTaskCount →
      (∀ e ∈ events, e.isDirectDone = false) → w.play events = some w1 →
      ∃ t1, w1.anchor.task = some p ∧ w1.heap p = some t1
        ∧ (t1.pendingTasks.length : Int) + (w1.gotPendingTasks.length : Int)
          ≤ t1.pendingTaskCount := by
  induction events with
  | nil =>
    intro w w1 p t hp ht hinv _ hplay
    simp only [World.play, Option.some.injEq] at hplay
    subst hplay
    exact ⟨t, hp, ht, hinv⟩
  | cons e rest ih =>
    intro w w1 p t hp ht hinv hall hplay
    simp only [World.play] at hplay
    cases hev : w.event e with
    | none => rw [hev] at hplay; exact absurd hplay (by simp)
    | some wm =>
      rw [hev, Option.some_bind] at hplay
      obtain ⟨tm, hpm, htm, hinvm⟩ :=
        World.event_pending w wm e p t hp ht hinv (hall e (List.mem_cons_self _ _)) hev
      exact ih wm w1 p tm hpm htm hinvm
        (fun x hx => hall x (List.mem_cons_of_mem _ hx)) hplay

/-- C11: in every state reached from a freshly constructed task through
operations of its owning anchor, calls on the task other than a direct
`onPendingTaskDone`, and the caller updating, cancelling and destroying children
it received from `getPendingTasks` (the destructor of a child that owns a task
calls `onPendingTaskDone`, that of a moved-from child does not), the pending
count is at least `0`. -/
theorem pending_count_nonneg (w w1 : World) (p : TaskPtr) (name : String)
    (isCancellable isVisible : Bool) (events : List Event)
    (hp : w.anchor.task = some p)
    (ht : w.heap p = some (EditorTask.ctor name isCancellable isVisible))
    (hg : w.gotPendingTasks = [])
    (hall : ∀ e ∈ events, e.isDirectDone = false)
    (hplay : w.play events = some w1) :
    ∃ t1, w1.heap p = some t1 ∧ 0 ≤ t1.pendingTaskCount := by
  obtain ⟨t1, _, ht1, hinv⟩ :=
    World.play_pending events w w1 p _ hp ht (by simp [EditorTask.ctor, hg]) hall hplay
  refine ⟨t1, ht1, ?_⟩
  have h1 : (0 : Int) ≤ (t1.pendingTasks.length : Int) := Int.natCast_nonneg _
  have h2 : (0 : Int) ≤ (w1.gotPendingTasks.length : Int) := Int.natCast_nonneg _
  linarith

/-- C20: in every state reached as in C11 (no direct `onPendingTaskDone`, only
children received from `getPendingTasks` are destroyed), the pending list has at
most `pendingTaskCount` entries, so it is empty when the count is `0`, and
`getPendingTasks()` returns the whole pending list: it moves the list out when the
count is positive, and when it is not it returns the empty list, leaves the
memory as it was, and the pending list is empty. -/
theorem getPendingTasks_gate (w w1 : World) (p : TaskPtr) (name : String)
    (isCancellable isVisible : Bool) (events : List Event)
    (hp : w.anchor.task = some p)
    (ht : w.heap p = some (EditorTask.ctor name isCancellable isVisible))
    (hg : w.gotPendingTasks = [])
    (hall : ∀ e ∈ events, e.isDirectDone = false)
    (hplay : w.play events = some w1) :
    ∃ t1 h2, w1.heap p = some t1
      ∧ (t1.pendingTasks.length : Int) ≤ t1.pendingTaskCount
      ∧ (t1.pendingTaskCount = 0 → t1.pendingTasks = [])
      ∧ w1.anchor.getPendingTasks w1.heap = some (h2, t1.pendingTasks)
      ∧ (¬ t1.pendingTaskCount > 0 → h2 = w1.heap ∧ t1.pendingTasks = []) := by
  obtain ⟨t1, hp1, ht1, hinv⟩ :=
    World.play_pending events w w1 p _ hp ht (by simp [EditorTask.ctor, hg]) hall hplay
  have hgot : (0 : Int) ≤ (w1.gotPendingTasks.length : Int) := Int.natCast_nonneg _
  have hlen : (t1.pendingTasks.length : Int) ≤ t1.pendingTaskCount := by linarith
  have hnil : ¬ t1.pendingTaskCount > 0 → t1.pendingTasks = [] := by
    intro hc
    apply List.length_eq_zero.mp
    have h0 : (t1.pendingTasks.length : Int) ≤ 0 := le_trans hlen (not_lt.mp hc)
    omega
  have hv := EditorTaskAnchor.getPendingTasks_valid w1.heap w1.anchor p t1 hp1 ht1
  by_cases hc : t1.pendingTaskCount > 0
  · rw [if_pos hc] at hv
    exact ⟨t1, _, ht1, hlen, fun h0 => hnil (by omega), hv, fun hn => absurd hc hn⟩
  · rw [if_neg hc] at hv
    refine ⟨t1, w1.heap, ht1, hlen, fun h0 => hnil (by omega), ?_, fun _ => ⟨rfl, hnil hc⟩⟩
    rw [hnil hc]
    exact hv

/-- Witness of `pending_count_nonneg`: two children registered, handed out and
destroyed. -/
theorem pending_count_nonneg_witness :
    ∃ t1, world1After0.heap 0 = some t1 ∧ 0 ≤ t1.pendingTaskCount :=
  pending_count_nonneg world1 world1After0 0 "import" true true events0 rfl rfl rfl
    (by decide) rfl

/-- Witness of `getPendingTasks_gate`: one child handed out and destroyed, one
still in the pending list. -/
theorem getPendingTasks_gate_witness :
    ∃ t1 h2, world1After1.heap 0 = some t1
      ∧ (t1.pendingTasks.length : Int) ≤ t1.pendingTaskCount
      ∧ (t1.pendingTaskCount = 0 → t1.pendingTasks = [])
      ∧ world1After1.anchor.getPendingTasks world1After1.heap
          = some (h2, t1.pendingTasks)
      ∧ (¬ t1.pendingTaskCount > 0 → h2 = world1After1.heap ∧ t1.pendingTasks = []) :=
  getPendingTasks_gate world1 world1After1 0 "import" true true events1 rfl rfl rfl
    (by decide) rfl

/-! ## The mutex discipline -/

/-- C19 as stated fails: `hasPendingTasks()` reads `pendingTaskCount` without
taking the mutex, and `getPendingTasks()` reads it before taking the mutex. -/
theorem count_read_without_mutex :
    (∃ path ∈ Method.hasPendingTasks.paths, guarded noAccess false path = false)
      ∧ ∃ path ∈ Method.getPendingTasks.paths, guarded noAccess false path = false := by
  constructor
  · exact ⟨[.read .pendingTaskCount], by decide, by decide⟩
  · exact ⟨[.read .pendingTaskCount], by decide, by decide⟩

/-- C19, amended: on every path of `setProgress`, `addPendingTask`,
`onPendingTaskDone` and `update`, every read and write of `progress`,
`progressLabel`, `pendingTasks` and `pendingTaskCount` is made while the mutex of
the task is held; on every path of `hasPendingTasks` and `getPendingTasks` the
same holds for every access other than the read of `pendingTaskCount`. -/
theorem accesses_under_mutex (m : Method) (path : List Access) (hpath : path ∈ m.paths) :
    guarded (if m = .hasPendingTasks ∨ m = .getPendingTasks then countRead else noAccess)
      false path = true := by
  cases m <;>
    simp only [Method.paths, List.mem_cons, List.mem_singleton, List.not_mem_nil,
      or_false] at hpath
  · subst hpath; decide
  · subst hpath; decide
  · subst hpath; decide
  · subst hpath; decide
  · rcases hpath with rfl | rfl <;> decide
  · rcases hpath with rfl | rfl <;> decide

/-- Witness of `accesses_under_mutex`: the path of `update` that copies the
progress. -/
theorem accesses_under_mutex_witness :
    guarded (if Method.update = .hasPendingTasks ∨ Method.update = .getPendingTasks then
        countRead else noAccess)
      false [.lock, .read .progress, .read .progressLabel, .unlock] = true :=
  accesses_under_mutex .update [.lock, .read .progress, .read .progressLabel, .unlock]
    (by decide)

end Halley
